import Mathlib

/-!
Shallow embedding of the convolver image-convolution engine (kernel.go).

Modelling conventions:
* Go `float64` arithmetic is embedded as exact rational arithmetic over `ℚ`.
* The two transcendental operations used by the sRGB transfer functions,
  `math.Pow(x, 2.4)` (in `convertSRGB8ToLinear`) and `math.Pow(x, 1/2.4)`
  (in `convertLinearToSRGB8`), have no exact counterpart over `ℚ`; they are
  abstracted as explicit function parameters `p24` and `pInv24`.  Every
  theorem quantifies over them (adding the hypotheses it needs, e.g.
  `pInv24 1 = 1`), and every concrete witness instantiates them.
* `image.NRGBA` is embedded as a rectangle of bounds plus a total pixel
  function; `NRGBAAt` returns the zero colour outside the bounds exactly as
  Go's `image` package does.
* The goroutine fan-out of `apply` is embedded by running the workers
  sequentially; each worker owns a disjoint set of rows, which is what the
  dispatcher theorems prove, so any interleaving writes the same image.
* Go's `panic` in the bulk weight setters is embedded as `Except.error`
  carrying the (expected, actual) counts reported by the panic message.
-/

namespace Convolver

/-- A 4-channel 8-bit pixel, as Go's `color.NRGBA`. -/
structure NRGBA where
  r : ℕ
  g : ℕ
  b : ℕ
  a : ℕ
deriving DecidableEq, Repr

/-- The zero colour returned by Go's `NRGBAAt` for out-of-bounds reads. -/
def zeroPix : NRGBA := ⟨0, 0, 0, 0⟩

/-- Channel projection, `0,1,2,3 ↦ R,G,B,A`. -/
def NRGBA.channel (c : NRGBA) : Fin 4 → ℕ
  | ⟨0, _⟩ => c.r
  | ⟨1, _⟩ => c.g
  | ⟨2, _⟩ => c.b
  | ⟨3, _⟩ => c.a

/-- An integer rectangle, as Go's `image.Rectangle` (min inclusive, max exclusive). -/
structure Rect where
  minX : ℤ
  minY : ℤ
  maxX : ℤ
  maxY : ℤ
deriving DecidableEq, Repr

/-- Membership of a point in a rectangle, as Go's `Point.In`. -/
def Rect.mem (rc : Rect) (x y : ℤ) : Prop :=
  rc.minX ≤ x ∧ x < rc.maxX ∧ rc.minY ≤ y ∧ y < rc.maxY

instance (rc : Rect) (x y : ℤ) : Decidable (rc.mem x y) := by
  unfold Rect.mem; infer_instance

/-- An NRGBA image: bounds plus a pixel store, as Go's `image.NRGBA`. -/
structure NRGBAImage where
  rect : Rect
  pix : ℤ → ℤ → NRGBA

/-- `NRGBAAt`: in-bounds pixel read; the zero colour outside bounds. -/
def NRGBAImage.nrgbaAt (img : NRGBAImage) (x y : ℤ) : NRGBA :=
  if img.rect.mem x y then img.pix x y else zeroPix

/-- `SetNRGBA`: writes the pixel if the point is in bounds, else does nothing. -/
def NRGBAImage.setNRGBA (img : NRGBAImage) (x y : ℤ) (c : NRGBA) : NRGBAImage :=
  if img.rect.mem x y then
    { img with pix := fun x0 y0 => if x0 = x ∧ y0 = y then c else img.pix x0 y0 }
  else img

/-- A 4-channel kernel weight, as `kernelWeight` (one float per channel). -/
structure kernelWeight where
  R : ℚ
  G : ℚ
  B : ℚ
  A : ℚ
deriving DecidableEq, Repr

/-- Channel projection for weights, `0,1,2,3 ↦ R,G,B,A`. -/
def kernelWeight.channel (w : kernelWeight) : Fin 4 → ℚ
  | ⟨0, _⟩ => w.R
  | ⟨1, _⟩ => w.G
  | ⟨2, _⟩ => w.B
  | ⟨3, _⟩ => w.A

/-- `kernelClip`: how many kernel rows/columns are clipped on each side. -/
structure kernelClip where
  Left : ℤ
  Right : ℤ
  Top : ℤ
  Bottom : ℤ
deriving DecidableEq, Repr

/-- The `Kernel` record: radius, derived side length, row-major weights. -/
structure Kernel where
  radius : ℕ
  sideLength : ℕ
  weights : List kernelWeight
deriving DecidableEq, Repr

/-- `KernelWithRadius`: a kernel of the given radius with all-zero weights. -/
def KernelWithRadius (radius : ℕ) : Kernel :=
  { radius := radius
    sideLength := radius * 2 + 1
    weights := List.replicate ((radius * 2 + 1) * (radius * 2 + 1)) ⟨0, 0, 0, 0⟩ }

/-- Go's `math.Round` (round half away from zero) on exact rationals.
`Rat.floor` is used rather than `⌊⌋` so the definition evaluates by `decide`;
`goRound_eq` below restates it with `⌊⌋`. -/
def goRound (x : ℚ) : ℤ :=
  if x < 0 then -(-x + 1/2).floor else (x + 1/2).floor

/-- `convertSRGB8ToLinear`: the closed-form sRGB decode of an 8-bit value.
The transcendental `math.Pow(u, 2.4)` is the abstract parameter `p24`. -/
def convertSRGB8ToLinear (p24 : ℚ → ℚ) (v : ℕ) : ℚ :=
  let vNormalised : ℚ := (v : ℚ) / 255
  if vNormalised ≤ 0.04045 then vNormalised / 12.92
  else p24 ((vNormalised + 0.055) / 1.055)

/-- `convertLinearToSRGB8`: the closed-form sRGB encode to an 8-bit value.
The transcendental `math.Pow(v, 1/2.4)` is the abstract parameter `pInv24`. -/
def convertLinearToSRGB8 (pInv24 : ℚ → ℚ) (v : ℚ) : ℕ :=
  let scaled : ℚ := if v ≤ 0.0031308 then v * 12.92 else 1.055 * pInv24 v - 0.055
  (goRound (min (max scaled 0) 1 * 255)).toNat

/-- `lookupSRGB8ToLinear`: the 256-entry decode table `sRGB8ToLinearLUT` is
built by applying `convertSRGB8ToLinear` to each byte, so the lookup is
exactly the closed-form function. -/
def lookupSRGB8ToLinear (p24 : ℚ → ℚ) (v : ℕ) : ℚ :=
  convertSRGB8ToLinear p24 v

/-- `lookupLinearToSRGB8`: clamp to `[0,1]`, quantize to a 512-step index,
and read the encode table `linearToSRGB8LUT`, whose entry `i` holds
`convertLinearToSRGB8 (i/511)`. -/
def lookupLinearToSRGB8 (pInv24 : ℚ → ℚ) (v : ℚ) : ℕ :=
  let clipped : ℚ := min (max v 0) 1
  convertLinearToSRGB8 pInv24 ((goRound (clipped * 511) : ℚ) / 511)

/-- `kernelWeight.toNRGBA`: encode each accumulated channel through the table. -/
def kernelWeight.toNRGBA (kw : kernelWeight) (pInv24 : ℚ → ℚ) : NRGBA :=
  { r := lookupLinearToSRGB8 pInv24 kw.R
    g := lookupLinearToSRGB8 pInv24 kw.G
    b := lookupLinearToSRGB8 pInv24 kw.B
    a := lookupLinearToSRGB8 pInv24 kw.A }

/-- `Rat.floor` agrees with the mathematical floor. -/
theorem ratFloor_eq_floor (x : ℚ) : x.floor = ⌊x⌋ := by
  rw [Rat.floor_def', ← Rat.floor_def]

/-- `goRound` restated with the mathematical floor. -/
theorem goRound_eq (x : ℚ) : goRound x = if x < 0 then -⌊-x + 1/2⌋ else ⌊x + 1/2⌋ := by
  unfold goRound
  rw [ratFloor_eq_floor, ratFloor_eq_floor]

/-- `clipToBounds`: per-side clip amounts from the distances to the bounds. -/
def Kernel.clipToBounds (k : Kernel) (bounds : Rect) (x y : ℤ) : kernelClip :=
  { Left := if x - bounds.minX < (k.radius : ℤ) then (k.radius : ℤ) - (x - bounds.minX) else 0
    Right := if bounds.maxX - x - 1 < (k.radius : ℤ) then (k.radius : ℤ) - (bounds.maxX - x - 1) else 0
    Top := if y - bounds.minY < (k.radius : ℤ) then (k.radius : ℤ) - (y - bounds.minY) else 0
    Bottom := if bounds.maxY - y - 1 < (k.radius : ℤ) then (k.radius : ℤ) - (bounds.maxY - y - 1) else 0 }

/-- Row-major weight access `k.weights[s*k.sideLength+t]`. -/
def Kernel.weightAt (k : Kernel) (s t : ℕ) : kernelWeight :=
  k.weights.getD (s * k.sideLength + t) ⟨0, 0, 0, 0⟩

/-- The `(s, t)` index pairs visited by the clipped double loop
`for s := clip.Top; s < sideLength-clip.Bottom; s++`
`for t := clip.Left; t < sideLength-clip.Right; t++`, in loop order. -/
def Kernel.windowIdx (k : Kernel) (clip : kernelClip) : List (ℕ × ℕ) :=
  ((List.range k.sideLength).filter fun (s : ℕ) =>
      decide (clip.Top ≤ (s : ℤ) ∧ (s : ℤ) < (k.sideLength : ℤ) - clip.Bottom)).flatMap fun (s : ℕ) =>
    ((List.range k.sideLength).filter fun (t : ℕ) =>
        decide (clip.Left ≤ (t : ℤ) ∧ (t : ℤ) < (k.sideLength : ℤ) - clip.Right)).map fun (t : ℕ) =>
      ((s, t) : ℕ × ℕ)

/-- The decoded channel value of the neighbourhood pixel read for window cell
`st = (s, t)` at centre `(x, y)`: `lookupSRGB8ToLinear(img.NRGBAAt(x+t-radius, y+s-radius))`. -/
def Kernel.windowValue (k : Kernel) (p24 : ℚ → ℚ) (img : NRGBAImage) (x y : ℤ) (i : Fin 4)
    (st : ℕ × ℕ) : ℚ :=
  lookupSRGB8ToLinear p24
    ((img.nrgbaAt (x + (st.2 : ℤ) - (k.radius : ℤ)) (y + (st.1 : ℤ) - (k.radius : ℤ))).channel i)

/-- The kernel weight of window cell `st = (s, t)` on channel `i`. -/
def Kernel.windowWeight (k : Kernel) (i : Fin 4) (st : ℕ × ℕ) : ℚ :=
  (k.weightAt st.1 st.2).channel i

/-- One iteration of `Avg`'s loop body: add the weight into `totalWeight` and
the decoded, weighted pixel into `sum` (the pair is `(totalWeight, sum)`). -/
def Kernel.avgStep (k : Kernel) (p24 : ℚ → ℚ) (img : NRGBAImage) (x y : ℤ)
    (acc : kernelWeight × kernelWeight) (st : ℕ × ℕ) : kernelWeight × kernelWeight :=
  let weight := k.weightAt st.1 st.2
  let c := img.nrgbaAt (x + (st.2 : ℤ) - (k.radius : ℤ)) (y + (st.1 : ℤ) - (k.radius : ℤ))
  (⟨acc.1.R + weight.R, acc.1.G + weight.G, acc.1.B + weight.B, acc.1.A + weight.A⟩,
   ⟨acc.2.R + lookupSRGB8ToLinear p24 c.r * weight.R,
    acc.2.G + lookupSRGB8ToLinear p24 c.g * weight.G,
    acc.2.B + lookupSRGB8ToLinear p24 c.b * weight.B,
    acc.2.A + lookupSRGB8ToLinear p24 c.a * weight.A⟩)

/-- `Avg`: weighted average over the clipped window, dividing each channel by
its total weight only when that total is strictly positive. -/
def Kernel.Avg (k : Kernel) (p24 pInv24 : ℚ → ℚ) (img : NRGBAImage) (x y : ℤ) : NRGBA :=
  let clip := k.clipToBounds img.rect x y
  let acc := (k.windowIdx clip).foldl (k.avgStep p24 img x y) (⟨0, 0, 0, 0⟩, ⟨0, 0, 0, 0⟩)
  let totalWeight := acc.1
  let sum := acc.2
  kernelWeight.toNRGBA
    ⟨if totalWeight.R > 0 then sum.R / totalWeight.R else sum.R,
     if totalWeight.G > 0 then sum.G / totalWeight.G else sum.G,
     if totalWeight.B > 0 then sum.B / totalWeight.B else sum.B,
     if totalWeight.A > 0 then sum.A / totalWeight.A else sum.A⟩ pInv24

/-- One iteration of `Max`'s loop body: per channel, keep the decoded value `v`
when `v*weight > m*weight` against the running value `m`. -/
def Kernel.maxStep (k : Kernel) (p24 : ℚ → ℚ) (img : NRGBAImage) (x y : ℤ)
    (m : kernelWeight) (st : ℕ × ℕ) : kernelWeight :=
  let weight := k.weightAt st.1 st.2
  let c := img.nrgbaAt (x + (st.2 : ℤ) - (k.radius : ℤ)) (y + (st.1 : ℤ) - (k.radius : ℤ))
  ⟨if lookupSRGB8ToLinear p24 c.r * weight.R > m.R * weight.R then lookupSRGB8ToLinear p24 c.r else m.R,
   if lookupSRGB8ToLinear p24 c.g * weight.G > m.G * weight.G then lookupSRGB8ToLinear p24 c.g else m.G,
   if lookupSRGB8ToLinear p24 c.b * weight.B > m.B * weight.B then lookupSRGB8ToLinear p24 c.b else m.B,
   if lookupSRGB8ToLinear p24 c.a * weight.A > m.A * weight.A then lookupSRGB8ToLinear p24 c.a else m.A⟩

/-- `Max`'s accumulator over the clipped window, initialised to `{}` (all zero). -/
def Kernel.maxPre (k : Kernel) (p24 : ℚ → ℚ) (img : NRGBAImage) (x y : ℤ) : kernelWeight :=
  (k.windowIdx (k.clipToBounds img.rect x y)).foldl (k.maxStep p24 img x y) ⟨0, 0, 0, 0⟩

/-- `Max`: weighted max over the clipped window. -/
def Kernel.Max (k : Kernel) (p24 pInv24 : ℚ → ℚ) (img : NRGBAImage) (x y : ℤ) : NRGBA :=
  (k.maxPre p24 img x y).toNRGBA pInv24

/-- One iteration of `Min`'s loop body: per channel, keep the decoded value `v`
when `v*weight < m*weight` against the running value `m`. -/
def Kernel.minStep (k : Kernel) (p24 : ℚ → ℚ) (img : NRGBAImage) (x y : ℤ)
    (m : kernelWeight) (st : ℕ × ℕ) : kernelWeight :=
  let weight := k.weightAt st.1 st.2
  let c := img.nrgbaAt (x + (st.2 : ℤ) - (k.radius : ℤ)) (y + (st.1 : ℤ) - (k.radius : ℤ))
  ⟨if lookupSRGB8ToLinear p24 c.r * weight.R < m.R * weight.R then lookupSRGB8ToLinear p24 c.r else m.R,
   if lookupSRGB8ToLinear p24 c.g * weight.G < m.G * weight.G then lookupSRGB8ToLinear p24 c.g else m.G,
   if lookupSRGB8ToLinear p24 c.b * weight.B < m.B * weight.B then lookupSRGB8ToLinear p24 c.b else m.B,
   if lookupSRGB8ToLinear p24 c.a * weight.A < m.A * weight.A then lookupSRGB8ToLinear p24 c.a else m.A⟩

/-- `Min`'s accumulator over the clipped window, initialised to `{255,255,255,255}`. -/
def Kernel.minPre (k : Kernel) (p24 : ℚ → ℚ) (img : NRGBAImage) (x y : ℤ) : kernelWeight :=
  (k.windowIdx (k.clipToBounds img.rect x y)).foldl (k.minStep p24 img x y) ⟨255, 255, 255, 255⟩

/-- `Min`: weighted min over the clipped window. -/
def Kernel.Min (k : Kernel) (p24 pInv24 : ℚ → ℚ) (img : NRGBAImage) (x y : ℤ) : NRGBA :=
  (k.minPre p24 img x y).toNRGBA pInv24

/-- `SetWeightRGBA`: set one cell's four channel weights. -/
def Kernel.setWeightRGBA (k : Kernel) (x y : ℕ) (r g b a : ℚ) : Kernel :=
  { k with weights := k.weights.set (y * k.sideLength + x) ⟨r, g, b, a⟩ }

/-- `SetWeightUniform`: set one cell's weight, broadcast to all four channels. -/
def Kernel.setWeightUniform (k : Kernel) (x y : ℕ) (weight : ℚ) : Kernel :=
  k.setWeightRGBA x y weight weight weight weight

/-- `SetWeightsRGBA`: set all cells at once from one 4-tuple per cell; a
length mismatch panics with the expected and actual counts (modelled as
`Except.error (expected, actual)`). -/
def Kernel.setWeightsRGBA (k : Kernel) (weights : List (ℚ × ℚ × ℚ × ℚ)) :
    Except (ℕ × ℕ) Kernel :=
  if k.sideLength * k.sideLength ≠ weights.length then
    Except.error (k.sideLength * k.sideLength, weights.length)
  else
    Except.ok { k with weights := weights.map fun w => ⟨w.1, w.2.1, w.2.2.1, w.2.2.2⟩ }

/-- `SetWeightsUniform`: set all cells at once, broadcasting each entry to all
four channels; a length mismatch panics with the expected and actual counts
(modelled as `Except.error (expected, actual)`). -/
def Kernel.setWeightsUniform (k : Kernel) (weights : List ℚ) : Except (ℕ × ℕ) Kernel :=
  if k.sideLength * k.sideLength ≠ weights.length then
    Except.error (k.sideLength * k.sideLength, weights.length)
  else
    Except.ok { k with weights := weights.map fun w => ⟨w, w, w, w⟩ }

/-- The row offsets `start, start+parallelism, start+2*parallelism, …` below
`h`, as iterated by `for i := bounds.Min.Y + workerNum; i < bounds.Max.Y;
i += parallelism`.  The structural `fuel` argument (instantiated with `h`,
which bounds the iteration count whenever `parallelism ≥ 1`) only makes the
recursion structural. -/
def strideRowsAux (parallelism h : ℕ) : ℕ → ℕ → List ℕ
  | 0, _ => []
  | fuel + 1, start => if start < h then start :: strideRowsAux parallelism h fuel (start + parallelism) else []

/-- The row offsets (relative to `bounds.Min.Y`) processed by worker `k`. -/
def workerRowOffsets (parallelism h k : ℕ) : List ℕ :=
  strideRowsAux parallelism h h k

/-- The column coordinates `bounds.Min.X, …, bounds.Max.X - 1` iterated by
`for j := bounds.Min.X; j < bounds.Max.X; j++`. -/
def colCoords (bounds : Rect) : List ℤ :=
  (List.range (bounds.maxX - bounds.minX).toNat).map fun (t : ℕ) => bounds.minX + (t : ℤ)

/-- One worker's inner loop over a row: write `op(img, j, i)` at every column. -/
def rowPass (op : NRGBAImage → ℤ → ℤ → NRGBA) (img : NRGBAImage) (bounds : Rect) (y : ℤ)
    (res : NRGBAImage) : NRGBAImage :=
  (colCoords bounds).foldl (fun r j => r.setNRGBA j y (op img j y)) res

/-- Worker `k`'s loop over its strided rows. -/
def workerPass (op : NRGBAImage → ℤ → ℤ → NRGBA) (img : NRGBAImage) (bounds : Rect)
    (parallelism k : ℕ) (res : NRGBAImage) : NRGBAImage :=
  (workerRowOffsets parallelism (bounds.maxY - bounds.minY).toNat k).foldl
    (fun r (d : ℕ) => rowPass op img bounds (bounds.minY + (d : ℤ)) r) res

/-- `apply`: allocate a fresh all-zero image of the input's bounds, run every
worker over its strided rows, and return the result after all complete.  The
concurrent workers are embedded sequentially; the dispatcher theorems show
each pixel is written by exactly one worker, so the interleaving is
irrelevant. -/
def applyOp (op : NRGBAImage → ℤ → ℤ → NRGBA) (img : NRGBAImage) (parallelism : ℕ) :
    NRGBAImage :=
  let bounds := img.rect
  (List.range parallelism).foldl (fun res k => workerPass op img bounds parallelism k res)
    ⟨bounds, fun _ _ => zeroPix⟩

/-- `ApplyAvg` (the input is already an NRGBA image, so `convertImageToNRGBA`
is the identity). -/
def Kernel.applyAvg (k : Kernel) (p24 pInv24 : ℚ → ℚ) (img : NRGBAImage) (parallelism : ℕ) :
    NRGBAImage :=
  applyOp (k.Avg p24 pInv24) img parallelism

/-- `ApplyMax`. -/
def Kernel.applyMax (k : Kernel) (p24 pInv24 : ℚ → ℚ) (img : NRGBAImage) (parallelism : ℕ) :
    NRGBAImage :=
  applyOp (k.Max p24 pInv24) img parallelism

/-- `ApplyMin`. -/
def Kernel.applyMin (k : Kernel) (p24 pInv24 : ℚ → ℚ) (img : NRGBAImage) (parallelism : ℕ) :
    NRGBAImage :=
  applyOp (k.Min p24 pInv24) img parallelism

/-- The clipped window as a set of `(s, t)` cells (order-independent view of
the double loop's index range). -/
def windowFinset (k : Kernel) (clip : kernelClip) : Finset (ℕ × ℕ) :=
  ((Finset.range k.sideLength) ×ˢ (Finset.range k.sideLength)).filter fun st =>
    clip.Top ≤ (st.1 : ℤ) ∧ (st.1 : ℤ) < (k.sideLength : ℤ) - clip.Bottom ∧
    clip.Left ≤ (st.2 : ℤ) ∧ (st.2 : ℤ) < (k.sideLength : ℤ) - clip.Right

/-- Total of the channel-`i` weights over the clipped window. -/
def avgTotalWeight (k : Kernel) (img : NRGBAImage) (x y : ℤ) (i : Fin 4) : ℚ :=
  ∑ st ∈ windowFinset k (k.clipToBounds img.rect x y), k.windowWeight i st

/-- Sum of decoded channel values times weights over the clipped window. -/
def avgWeightedSum (k : Kernel) (p24 : ℚ → ℚ) (img : NRGBAImage) (x y : ℤ) (i : Fin 4) : ℚ :=
  ∑ st ∈ windowFinset k (k.clipToBounds img.rect x y),
    k.windowValue p24 img x y i st * k.windowWeight i st

/-- The average as claim C2 words it: divide by the total weight when it is
strictly positive, and leave the channel at zero otherwise.  (Follows the
spec text, for comparison against `Kernel.Avg`.) -/
def avgClaimC2 (k : Kernel) (p24 pInv24 : ℚ → ℚ) (img : NRGBAImage) (x y : ℤ) (i : Fin 4) : ℕ :=
  lookupLinearToSRGB8 pInv24
    (if 0 < avgTotalWeight k img x y i then
      avgWeightedSum k p24 img x y i / avgTotalWeight k img x y i
    else 0)

/-- The window cells claim C3 says `Max` selects from: nonzero channel-`i`
weight and maximal `weight*value` product among such cells.  (Follows the
spec text, for comparison against `Kernel.Max`.) -/
def maxClaimC3Candidates (k : Kernel) (p24 : ℚ → ℚ) (img : NRGBAImage) (x y : ℤ) (i : Fin 4) :
    Finset (ℕ × ℕ) :=
  (windowFinset k (k.clipToBounds img.rect x y)).filter fun st =>
    k.windowWeight i st ≠ 0 ∧
    ∀ st2 ∈ windowFinset k (k.clipToBounds img.rect x y), k.windowWeight i st2 ≠ 0 →
      k.windowValue p24 img x y i st2 * k.windowWeight i st2 ≤
        k.windowValue p24 img x y i st * k.windowWeight i st

/-- The per-channel `(value, weight)` entries of the clipped window, in loop
order — the data `Max`/`Min` folds over on channel `i`. -/
def Kernel.channelEntries (k : Kernel) (p24 : ℚ → ℚ) (img : NRGBAImage) (x y : ℤ) (i : Fin 4) :
    List (ℚ × ℚ) :=
  (k.windowIdx (k.clipToBounds img.rect x y)).map fun st =>
    (k.windowValue p24 img x y i st, k.windowWeight i st)

/-- One channel of `Max`'s loop body on a `(value, weight)` entry. -/
def chanStepMax (m : ℚ) (vw : ℚ × ℚ) : ℚ :=
  if vw.1 * vw.2 > m * vw.2 then vw.1 else m

/-- One channel of `Min`'s loop body on a `(value, weight)` entry. -/
def chanStepMin (m : ℚ) (vw : ℚ × ℚ) : ℚ :=
  if vw.1 * vw.2 < m * vw.2 then vw.1 else m

/-- One channel of `Max`'s fold. -/
def maxFoldChannel (entries : List (ℚ × ℚ)) (init : ℚ) : ℚ :=
  entries.foldl chanStepMax init

/-- One channel of `Min`'s fold. -/
def minFoldChannel (entries : List (ℚ × ℚ)) (init : ℚ) : ℚ :=
  entries.foldl chanStepMin init

/-- The radius-0 kernel whose single cell has unit weight on every channel. -/
def unitKernel : Kernel :=
  (KernelWithRadius 0).setWeightUniform 0 0 1

/-- One channel's round trip through the decode and encode tables. -/
def tableRoundTrip (p24 pInv24 : ℚ → ℚ) (c : ℕ) : ℕ :=
  lookupLinearToSRGB8 pInv24 (lookupSRGB8ToLinear p24 c)

/-- A pixel's round trip through the decode and encode tables. -/
def pixRoundTrip (p24 pInv24 : ℚ → ℚ) (c : NRGBA) : NRGBA :=
  ⟨tableRoundTrip p24 pInv24 c.r, tableRoundTrip p24 pInv24 c.g,
   tableRoundTrip p24 pInv24 c.b, tableRoundTrip p24 pInv24 c.a⟩

/-- Test fixture: a 1×1 image whose pixel has every channel equal to 1. -/
def img1 : NRGBAImage :=
  ⟨⟨0, 0, 1, 1⟩, fun _ _ => ⟨1, 1, 1, 1⟩⟩

/-- Test fixture: a 1×2 image with rows `⟨5,5,5,5⟩` and `⟨7,7,7,7⟩`. -/
def img2 : NRGBAImage :=
  ⟨⟨0, 0, 1, 2⟩, fun _ y => if y = 0 then ⟨5, 5, 5, 5⟩ else ⟨7, 7, 7, 7⟩⟩

/-- Test fixture: a 3×1 image with pixel `(0,0)` fully saturated and the
rest black. -/
def imgC2 : NRGBAImage :=
  ⟨⟨0, 0, 3, 1⟩, fun x _ => if x = 0 then ⟨255, 255, 255, 255⟩ else ⟨0, 0, 0, 0⟩⟩

/-- Test fixture: a radius-1 kernel whose middle row is `(+1, 0, -1)` on every
channel and whose other weights are zero. -/
def kC2 : Kernel :=
  ((KernelWithRadius 1).setWeightUniform 0 1 1).setWeightUniform 2 1 (-1)

/-- Test fixture: a 3×1 image with pixels `(0,0) = 2`, `(2,0) = 6` (all
channels) and the middle pixel black. -/
def imgC3 : NRGBAImage :=
  ⟨⟨0, 0, 3, 1⟩, fun x _ =>
    if x = 0 then ⟨2, 2, 2, 2⟩ else if x = 2 then ⟨6, 6, 6, 6⟩ else ⟨0, 0, 0, 0⟩⟩

/-- Test fixture: a radius-1 kernel whose middle row is `(100, 0, 1)` on every
channel and whose other weights are zero. -/
def kC3 : Kernel :=
  ((KernelWithRadius 1).setWeightUniform 0 1 100).setWeightUniform 2 1 1

theorem kernelWeight.channel_const (q : ℚ) (i : Fin 4) :
    kernelWeight.channel ⟨q, q, q, q⟩ i = q := by
  fin_cases i <;> rfl

theorem kernelWeight.toNRGBA_channel (kw : kernelWeight) (pInv24 : ℚ → ℚ) (i : Fin 4) :
    (kw.toNRGBA pInv24).channel i = lookupLinearToSRGB8 pInv24 (kw.channel i) := by
  fin_cases i <;> rfl

/-- A projection that commutes with a fold's step commutes with the fold. -/
theorem foldl_proj {α β γ : Type} (proj : β → γ) (step : β → α → β) (g : γ → α → γ)
    (h : ∀ b e, proj (step b e) = g (proj b) e) :
    ∀ (L : List α) (init : β), proj (L.foldl step init) = L.foldl g (proj init)
  | [], _ => rfl
  | e :: L, init => by
    rw [List.foldl_cons, List.foldl_cons, foldl_proj proj step g h L, h]

/-- A fold that only accumulates additions is a sum. -/
theorem foldl_add_sum {α : Type} (f : α → ℚ) :
    ∀ (L : List α) (a : ℚ), L.foldl (fun acc e => acc + f e) a = a + (L.map f).sum
  | [], a => by simp
  | e :: L, a => by
    rw [List.foldl_cons, foldl_add_sum f L, List.map_cons, List.sum_cons, add_assoc]

theorem maxStep_channel (k : Kernel) (p24 : ℚ → ℚ) (img : NRGBAImage) (x y : ℤ)
    (m : kernelWeight) (st : ℕ × ℕ) (i : Fin 4) :
    (k.maxStep p24 img x y m st).channel i =
      chanStepMax (m.channel i) (k.windowValue p24 img x y i st, k.windowWeight i st) := by
  fin_cases i <;> rfl

theorem minStep_channel (k : Kernel) (p24 : ℚ → ℚ) (img : NRGBAImage) (x y : ℤ)
    (m : kernelWeight) (st : ℕ × ℕ) (i : Fin 4) :
    (k.minStep p24 img x y m st).channel i =
      chanStepMin (m.channel i) (k.windowValue p24 img x y i st, k.windowWeight i st) := by
  fin_cases i <;> rfl

/-- Channel `i` of `Max`'s accumulator is the channel fold over the window's
`(value, weight)` entries, starting at 0. -/
theorem maxPre_channel (k : Kernel) (p24 : ℚ → ℚ) (img : NRGBAImage) (x y : ℤ) (i : Fin 4) :
    (k.maxPre p24 img x y).channel i = maxFoldChannel (k.channelEntries p24 img x y i) 0 := by
  unfold Kernel.maxPre maxFoldChannel Kernel.channelEntries
  rw [List.foldl_map,
    foldl_proj (fun m => m.channel i) (k.maxStep p24 img x y)
      (fun m st => chanStepMax m (k.windowValue p24 img x y i st, k.windowWeight i st))
      (fun m st => maxStep_channel k p24 img x y m st i),
    kernelWeight.channel_const]

/-- Channel `i` of `Min`'s accumulator is the channel fold over the window's
`(value, weight)` entries, starting at 255. -/
theorem minPre_channel (k : Kernel) (p24 : ℚ → ℚ) (img : NRGBAImage) (x y : ℤ) (i : Fin 4) :
    (k.minPre p24 img x y).channel i = minFoldChannel (k.channelEntries p24 img x y i) 255 := by
  unfold Kernel.minPre minFoldChannel Kernel.channelEntries
  rw [List.foldl_map,
    foldl_proj (fun m => m.channel i) (k.minStep p24 img x y)
      (fun m st => chanStepMin m (k.windowValue p24 img x y i st, k.windowWeight i st))
      (fun m st => minStep_channel k p24 img x y m st i),
    kernelWeight.channel_const]

theorem avgStep_fst_channel (k : Kernel) (p24 : ℚ → ℚ) (img : NRGBAImage) (x y : ℤ)
    (acc : kernelWeight × kernelWeight) (st : ℕ × ℕ) (i : Fin 4) :
    (k.avgStep p24 img x y acc st).1.channel i = acc.1.channel i + k.windowWeight i st := by
  fin_cases i <;> rfl

theorem avgStep_snd_channel (k : Kernel) (p24 : ℚ → ℚ) (img : NRGBAImage) (x y : ℤ)
    (acc : kernelWeight × kernelWeight) (st : ℕ × ℕ) (i : Fin 4) :
    (k.avgStep p24 img x y acc st).2.channel i =
      acc.2.channel i + k.windowValue p24 img x y i st * k.windowWeight i st := by
  fin_cases i <;> rfl

/-- Channel `i` of `Avg`'s `totalWeight` accumulator is the sum of the
channel-`i` weights over the window list. -/
theorem avgAcc_fst_channel (k : Kernel) (p24 : ℚ → ℚ) (img : NRGBAImage) (x y : ℤ)
    (L : List (ℕ × ℕ)) (i : Fin 4) :
    ((L.foldl (k.avgStep p24 img x y) (⟨0, 0, 0, 0⟩, ⟨0, 0, 0, 0⟩)).1.channel i) =
      (L.map (k.windowWeight i)).sum := by
  rw [foldl_proj (fun acc => acc.1.channel i) (k.avgStep p24 img x y)
      (fun a st => a + k.windowWeight i st)
      (fun acc st => avgStep_fst_channel k p24 img x y acc st i),
    foldl_add_sum, kernelWeight.channel_const, zero_add]

/-- Channel `i` of `Avg`'s `sum` accumulator is the weighted sum of decoded
channel values over the window list. -/
theorem avgAcc_snd_channel (k : Kernel) (p24 : ℚ → ℚ) (img : NRGBAImage) (x y : ℤ)
    (L : List (ℕ × ℕ)) (i : Fin 4) :
    ((L.foldl (k.avgStep p24 img x y) (⟨0, 0, 0, 0⟩, ⟨0, 0, 0, 0⟩)).2.channel i) =
      (L.map fun st => k.windowValue p24 img x y i st * k.windowWeight i st).sum := by
  rw [foldl_proj (fun acc => acc.2.channel i) (k.avgStep p24 img x y)
      (fun a st => a + k.windowValue p24 img x y i st * k.windowWeight i st)
      (fun acc st => avgStep_snd_channel k p24 img x y acc st i),
    foldl_add_sum, kernelWeight.channel_const, zero_add]

/-- Channel `i` of `Avg`: encode the window's weighted sum, divided by the
total weight exactly when that total is strictly positive. -/
theorem Avg_channel (k : Kernel) (p24 pInv24 : ℚ → ℚ) (img : NRGBAImage) (x y : ℤ) (i : Fin 4) :
    (k.Avg p24 pInv24 img x y).channel i =
      lookupLinearToSRGB8 pInv24
        (if 0 < ((k.windowIdx (k.clipToBounds img.rect x y)).map (k.windowWeight i)).sum then
          ((k.windowIdx (k.clipToBounds img.rect x y)).map fun st =>
              k.windowValue p24 img x y i st * k.windowWeight i st).sum /
            ((k.windowIdx (k.clipToBounds img.rect x y)).map (k.windowWeight i)).sum
        else
          ((k.windowIdx (k.clipToBounds img.rect x y)).map fun st =>
              k.windowValue p24 img x y i st * k.windowWeight i st).sum) := by
  unfold Kernel.Avg
  rw [kernelWeight.toNRGBA_channel]
  congr 1
  rcases i with ⟨iv, hiv⟩
  interval_cases iv <;>
  · have h1 := avgAcc_fst_channel k p24 img x y (k.windowIdx (k.clipToBounds img.rect x y)) ⟨_, hiv⟩
    have h2 := avgAcc_snd_channel k p24 img x y (k.windowIdx (k.clipToBounds img.rect x y)) ⟨_, hiv⟩
    simp only [kernelWeight.channel] at h1 h2
    simp only [kernelWeight.channel]
    rw [h1, h2]

theorem chanStepMax_zero (m v : ℚ) : chanStepMax m (v, 0) = m := by
  simp [chanStepMax]

theorem chanStepMin_zero (m v : ℚ) : chanStepMin m (v, 0) = m := by
  simp [chanStepMin]

theorem chanStepMax_pos (m v w : ℚ) (hw : 0 < w) : chanStepMax m (v, w) = max m v := by
  simp only [chanStepMax, gt_iff_lt]
  split_ifs with h
  · exact (max_eq_right (le_of_lt ((mul_lt_mul_right hw).mp h))).symm
  · exact (max_eq_left ((mul_le_mul_right hw).mp (not_lt.mp h))).symm

theorem chanStepMin_pos (m v w : ℚ) (hw : 0 < w) : chanStepMin m (v, w) = min m v := by
  simp only [chanStepMin]
  split_ifs with h
  · exact (min_eq_right (le_of_lt ((mul_lt_mul_right hw).mp h))).symm
  · exact (min_eq_left ((mul_le_mul_right hw).mp (not_lt.mp h))).symm

/-- Entries whose weight is zero never influence `Max`'s channel fold. -/
theorem maxFoldChannel_filter_ne_zero :
    ∀ (L : List (ℚ × ℚ)) (init : ℚ),
      maxFoldChannel L init = maxFoldChannel (L.filter fun vw => decide (vw.2 ≠ 0)) init
  | [], _ => rfl
  | vw :: L, init => by
    by_cases h : vw.2 = 0
    · obtain ⟨v, w⟩ := vw
      simp only at h
      subst h
      rw [List.filter_cons]
      simp only [decide_eq_true_eq, ne_eq, not_true_eq_false, if_false]
      show maxFoldChannel L (chanStepMax init (v, 0)) = _
      rw [chanStepMax_zero, maxFoldChannel_filter_ne_zero L init]
    · rw [List.filter_cons]
      simp only [decide_eq_true_eq, ne_eq, h, not_false_eq_true, if_true]
      show maxFoldChannel L (chanStepMax init vw) = maxFoldChannel _ (chanStepMax init vw)
      exact maxFoldChannel_filter_ne_zero L (chanStepMax init vw)

/-- Entries whose weight is zero never influence `Min`'s channel fold. -/
theorem minFoldChannel_filter_ne_zero :
    ∀ (L : List (ℚ × ℚ)) (init : ℚ),
      minFoldChannel L init = minFoldChannel (L.filter fun vw => decide (vw.2 ≠ 0)) init
  | [], _ => rfl
  | vw :: L, init => by
    by_cases h : vw.2 = 0
    · obtain ⟨v, w⟩ := vw
      simp only at h
      subst h
      rw [List.filter_cons]
      simp only [decide_eq_true_eq, ne_eq, not_true_eq_false, if_false]
      show minFoldChannel L (chanStepMin init (v, 0)) = _
      rw [chanStepMin_zero, minFoldChannel_filter_ne_zero L init]
    · rw [List.filter_cons]
      simp only [decide_eq_true_eq, ne_eq, h, not_false_eq_true, if_true]
      show minFoldChannel L (chanStepMin init vw) = minFoldChannel _ (chanStepMin init vw)
      exact minFoldChannel_filter_ne_zero L (chanStepMin init vw)

/-- With nonnegative weights, `Max`'s channel fold takes the plain maximum of
the values carried by positive-weight entries (and the initial value). -/
theorem maxFoldChannel_nonneg :
    ∀ (L : List (ℚ × ℚ)) (init : ℚ), (∀ vw ∈ L, 0 ≤ vw.2) →
      maxFoldChannel L init =
        ((L.filter fun vw => decide (0 < vw.2)).map Prod.fst).foldl max init
  | [], _, _ => rfl
  | vw :: L, init, h => by
    obtain ⟨v, w⟩ := vw
    rcases (h (v, w) (List.mem_cons_self _ _)).lt_or_eq with hw | hw
    · rw [List.filter_cons]
      simp only [decide_eq_true_eq, hw, if_true, List.map_cons, List.foldl_cons]
      show maxFoldChannel L (chanStepMax init (v, w)) = _
      rw [chanStepMax_pos init v w hw,
        maxFoldChannel_nonneg L (max init v) fun e he => h e (List.mem_cons_of_mem _ he)]
    · have hw0 : w = 0 := by simpa using hw.symm
      subst hw0
      rw [List.filter_cons]
      simp only [decide_eq_true_eq, lt_irrefl, if_false]
      show maxFoldChannel L (chanStepMax init (v, 0)) = _
      rw [chanStepMax_zero,
        maxFoldChannel_nonneg L init fun e he => h e (List.mem_cons_of_mem _ he)]

/-- With nonnegative weights, `Min`'s channel fold takes the plain minimum of
the values carried by positive-weight entries (and the initial value). -/
theorem minFoldChannel_nonneg :
    ∀ (L : List (ℚ × ℚ)) (init : ℚ), (∀ vw ∈ L, 0 ≤ vw.2) →
      minFoldChannel L init =
        ((L.filter fun vw => decide (0 < vw.2)).map Prod.fst).foldl min init
  | [], _, _ => rfl
  | vw :: L, init, h => by
    obtain ⟨v, w⟩ := vw
    rcases (h (v, w) (List.mem_cons_self _ _)).lt_or_eq with hw | hw
    · rw [List.filter_cons]
      simp only [decide_eq_true_eq, hw, if_true, List.map_cons, List.foldl_cons]
      show minFoldChannel L (chanStepMin init (v, w)) = _
      rw [chanStepMin_pos init v w hw,
        minFoldChannel_nonneg L (min init v) fun e he => h e (List.mem_cons_of_mem _ he)]
    · have hw0 : w = 0 := by simpa using hw.symm
      subst hw0
      rw [List.filter_cons]
      simp only [decide_eq_true_eq, lt_irrefl, if_false]
      show minFoldChannel L (chanStepMin init (v, 0)) = _
      rw [chanStepMin_zero,
        minFoldChannel_nonneg L init fun e he => h e (List.mem_cons_of_mem _ he)]

theorem mem_windowIdx (k : Kernel) (clip : kernelClip) (st : ℕ × ℕ) :
    st ∈ k.windowIdx clip ↔
      st.1 < k.sideLength ∧ st.2 < k.sideLength ∧
      clip.Top ≤ (st.1 : ℤ) ∧ (st.1 : ℤ) < (k.sideLength : ℤ) - clip.Bottom ∧
      clip.Left ≤ (st.2 : ℤ) ∧ (st.2 : ℤ) < (k.sideLength : ℤ) - clip.Right := by
  obtain ⟨s, t⟩ := st
  simp only [Kernel.windowIdx, List.mem_flatMap, List.mem_map, List.mem_filter,
    List.mem_range, decide_eq_true_eq, Prod.mk.injEq]
  constructor
  · rintro ⟨s0, ⟨hs0, hc0⟩, t0, ⟨ht0, hc1⟩, rfl, rfl⟩
    exact ⟨hs0, ht0, hc0.1, hc0.2, hc1.1, hc1.2⟩
  · rintro ⟨hs, ht, h1, h2, h3, h4⟩
    exact ⟨s, ⟨hs, h1, h2⟩, t, ⟨ht, h3, h4⟩, rfl, rfl⟩

theorem windowIdx_nodup (k : Kernel) (clip : kernelClip) : (k.windowIdx clip).Nodup := by
  unfold Kernel.windowIdx
  rw [List.nodup_flatMap]
  refine ⟨fun s _ => ?_, ?_⟩
  · exact (List.Nodup.filter _ (List.nodup_range _)).map (fun a b h => (Prod.mk.injEq _ _ _ _ ▸ h).2)
  · refine List.Pairwise.filter _ ?_
    refine List.pairwise_iff_forall_sublist.mpr ?_
    intro a b hab
    have hne : a ≠ b := by
      intro h
      exact (List.nodup_iff_sublist.mp (List.nodup_range k.sideLength)) a (h ▸ hab)
    intro p hpa hpb
    simp only [List.mem_map] at hpa hpb
    obtain ⟨t1, _, h1⟩ := hpa
    obtain ⟨t2, _, h2⟩ := hpb
    exact hne ((Prod.mk.injEq _ _ _ _ ▸ (h1.trans h2.symm)).1)

theorem windowIdx_toFinset (k : Kernel) (clip : kernelClip) :
    (k.windowIdx clip).toFinset = windowFinset k clip := by
  ext st
  rw [List.mem_toFinset, mem_windowIdx]
  obtain ⟨s, t⟩ := st
  simp only [windowFinset, Finset.mem_filter, Finset.mem_product, Finset.mem_range]
  tauto

/-- Sums over the clipped window set are sums over the loop's index list. -/
theorem sum_windowFinset (k : Kernel) (clip : kernelClip) (f : ℕ × ℕ → ℚ) :
    ∑ st ∈ windowFinset k clip, f st = ((k.windowIdx clip).map f).sum := by
  rw [← windowIdx_toFinset, List.sum_toFinset f (windowIdx_nodup k clip)]

/-- Membership in the strided row list: the offsets below `h` congruent to
`start` modulo the stride (provided the fuel covers the whole iteration). -/
theorem mem_strideRowsAux (par h : ℕ) :
    ∀ (fuel start d : ℕ), h ≤ start + fuel → 0 < par →
      (d ∈ strideRowsAux par h fuel start ↔ d < h ∧ ∃ j, d = start + par * j)
  | 0, start, d, hfuel, _ => by
    simp only [strideRowsAux, List.not_mem_nil, false_iff]
    rintro ⟨hd, j, hj⟩
    have : start ≤ d := hj ▸ Nat.le_add_right start (par * j)
    omega
  | fuel + 1, start, d, hfuel, hpar => by
    simp only [strideRowsAux]
    by_cases hlt : start < h
    · rw [if_pos hlt]
      have IH := mem_strideRowsAux par h fuel (start + par) d (by omega) hpar
      rw [List.mem_cons, IH]
      constructor
      · rintro (rfl | ⟨hd, j, rfl⟩)
        · exact ⟨hlt, 0, by simp⟩
        · exact ⟨hd, j + 1, by ring⟩
      · rintro ⟨hd, j, rfl⟩
        cases j with
        | zero => left; simp
        | succ j => right; exact ⟨hd, j, by ring⟩
    · rw [if_neg hlt]
      simp only [List.not_mem_nil, false_iff]
      rintro ⟨hd, j, hj⟩
      have : start ≤ d := hj ▸ Nat.le_add_right start (par * j)
      omega

/-- Worker `k` owns exactly the in-range row offsets `k, k+par, k+2*par, …`. -/
theorem mem_workerRowOffsets (par h k d : ℕ) (hpar : 0 < par) :
    d ∈ workerRowOffsets par h k ↔ d < h ∧ ∃ j, d = k + par * j := by
  exact mem_strideRowsAux par h h k d (by omega) hpar

theorem mem_colCoords (bounds : Rect) (x : ℤ) :
    x ∈ colCoords bounds ↔ bounds.minX ≤ x ∧ x < bounds.maxX := by
  simp only [colCoords, List.mem_map, List.mem_range]
  constructor
  · rintro ⟨t, ht, rfl⟩
    omega
  · intro h
    exact ⟨(x - bounds.minX).toNat, by omega, by omega⟩

theorem setNRGBA_rect (img : NRGBAImage) (x y : ℤ) (c : NRGBA) :
    (img.setNRGBA x y c).rect = img.rect := by
  unfold NRGBAImage.setNRGBA
  split <;> rfl

theorem setNRGBA_pix (img : NRGBAImage) (x y : ℤ) (c : NRGBA) (x0 y0 : ℤ) :
    (img.setNRGBA x y c).pix x0 y0 =
      if x0 = x ∧ y0 = y ∧ img.rect.mem x y then c else img.pix x0 y0 := by
  unfold NRGBAImage.setNRGBA
  by_cases h1 : img.rect.mem x y
  · rw [if_pos h1]
    by_cases h2 : x0 = x ∧ y0 = y
    · show (if x0 = x ∧ y0 = y then c else img.pix x0 y0) = _
      rw [if_pos h2, if_pos ⟨h2.1, h2.2, h1⟩]
    · show (if x0 = x ∧ y0 = y then c else img.pix x0 y0) = _
      rw [if_neg h2, if_neg fun h => h2 ⟨h.1, h.2.1⟩]
  · rw [if_neg h1, if_neg fun h => h1 h.2.2]

theorem foldWrite_rect (op : NRGBAImage → ℤ → ℤ → NRGBA) (img : NRGBAImage) (y : ℤ) :
    ∀ (L : List ℤ) (res : NRGBAImage),
      (L.foldl (fun r j => r.setNRGBA j y (op img j y)) res).rect = res.rect
  | [], _ => rfl
  | j :: L, res => by
    rw [List.foldl_cons, foldWrite_rect op img y L _, setNRGBA_rect]

/-- Value of a pixel after a row of writes at height `y`. -/
theorem foldWrite_pix (op : NRGBAImage → ℤ → ℤ → NRGBA) (img : NRGBAImage) (y : ℤ) :
    ∀ (L : List ℤ) (res : NRGBAImage) (x0 y0 : ℤ),
      (L.foldl (fun r j => r.setNRGBA j y (op img j y)) res).pix x0 y0 =
        if y0 = y ∧ x0 ∈ L ∧ res.rect.mem x0 y0 then op img x0 y0 else res.pix x0 y0
  | [], res, x0, y0 => by simp
  | j :: L, res, x0, y0 => by
    rw [List.foldl_cons, foldWrite_pix op img y L _ x0 y0, setNRGBA_rect, setNRGBA_pix]
    by_cases hy : y0 = y
    · subst hy
      by_cases hx : x0 ∈ L ∧ res.rect.mem x0 y0
      · rw [if_pos ⟨rfl, hx.1, hx.2⟩, if_pos ⟨rfl, List.mem_cons_of_mem j hx.1, hx.2⟩]
      · rw [if_neg fun h => hx ⟨h.2.1, h.2.2⟩]
        by_cases hj : x0 = j ∧ res.rect.mem j y0
        · obtain ⟨rfl, hm⟩ := hj
          rw [if_pos ⟨rfl, rfl, hm⟩, if_pos ⟨rfl, List.mem_cons_self x0 L, hm⟩]
        · rw [if_neg fun h => hj ⟨h.1, h.2.2⟩]
          rw [if_neg]
          rintro ⟨-, hmem, hm⟩
          rcases List.mem_cons.mp hmem with rfl | hL
          · exact hj ⟨rfl, hm⟩
          · exact hx ⟨hL, hm⟩
    · rw [if_neg fun h => hy h.1, if_neg fun h => hy h.2.1, if_neg fun h => hy h.1]

theorem rowPass_rect (op : NRGBAImage → ℤ → ℤ → NRGBA) (img : NRGBAImage) (bounds : Rect)
    (y : ℤ) (res : NRGBAImage) : (rowPass op img bounds y res).rect = res.rect :=
  foldWrite_rect op img y (colCoords bounds) res

theorem rowPass_pix (op : NRGBAImage → ℤ → ℤ → NRGBA) (img : NRGBAImage) (bounds : Rect)
    (y : ℤ) (res : NRGBAImage) (x0 y0 : ℤ) :
    (rowPass op img bounds y res).pix x0 y0 =
      if y0 = y ∧ bounds.minX ≤ x0 ∧ x0 < bounds.maxX ∧ res.rect.mem x0 y0
      then op img x0 y0 else res.pix x0 y0 := by
  unfold rowPass
  rw [foldWrite_pix]
  refine if_congr ?_ rfl rfl
  rw [mem_colCoords]
  tauto

theorem rowsFold_rect (op : NRGBAImage → ℤ → ℤ → NRGBA) (img : NRGBAImage) (bounds : Rect) :
    ∀ (RL : List ℕ) (res : NRGBAImage),
      (RL.foldl (fun r (d2 : ℕ) => rowPass op img bounds (bounds.minY + (d2 : ℤ)) r) res).rect = res.rect
  | [], _ => rfl
  | d :: RL, res => by
    rw [List.foldl_cons, rowsFold_rect op img bounds RL _, rowPass_rect]

/-- Value of a pixel after a worker's writes over a list of row offsets. -/
theorem rowsFold_pix (op : NRGBAImage → ℤ → ℤ → NRGBA) (img : NRGBAImage) (bounds : Rect) :
    ∀ (RL : List ℕ) (res : NRGBAImage) (x0 y0 : ℤ),
      (RL.foldl (fun r (d2 : ℕ) => rowPass op img bounds (bounds.minY + (d2 : ℤ)) r) res).pix x0 y0 =
        if (∃ d ∈ RL, y0 = bounds.minY + (d : ℤ)) ∧
            bounds.minX ≤ x0 ∧ x0 < bounds.maxX ∧ res.rect.mem x0 y0
        then op img x0 y0 else res.pix x0 y0
  | [], res, x0, y0 => by simp
  | d :: RL, res, x0, y0 => by
    rw [List.foldl_cons, rowsFold_pix op img bounds RL _ x0 y0, rowPass_rect, rowPass_pix]
    by_cases hcoord : bounds.minX ≤ x0 ∧ x0 < bounds.maxX ∧ res.rect.mem x0 y0
    · by_cases hrl : ∃ e ∈ RL, y0 = bounds.minY + (e : ℤ)
      · rw [if_pos ⟨hrl, hcoord⟩]
        obtain ⟨e, he, rfl⟩ := hrl
        rw [if_pos ⟨⟨e, List.mem_cons_of_mem d he, rfl⟩, hcoord⟩]
      · rw [if_neg fun h => hrl h.1]
        by_cases hd : y0 = bounds.minY + (d : ℤ)
        · rw [if_pos ⟨hd, hcoord⟩, if_pos ⟨⟨d, List.mem_cons_self d RL, hd⟩, hcoord⟩]
        · rw [if_neg fun h => hd h.1, if_neg]
          rintro ⟨⟨e, he, rfl⟩, -⟩
          rcases List.mem_cons.mp he with rfl | hL
          · exact hd rfl
          · exact hrl ⟨e, hL, rfl⟩
    · rw [if_neg fun h => hcoord h.2, if_neg fun h => hcoord ⟨h.2.1, h.2.2⟩,
        if_neg fun h => hcoord h.2]

theorem workerPass_rect (op : NRGBAImage → ℤ → ℤ → NRGBA) (img : NRGBAImage) (bounds : Rect)
    (par k : ℕ) (res : NRGBAImage) : (workerPass op img bounds par k res).rect = res.rect :=
  rowsFold_rect op img bounds _ res

theorem workerPass_pix (op : NRGBAImage → ℤ → ℤ → NRGBA) (img : NRGBAImage) (bounds : Rect)
    (par k : ℕ) (res : NRGBAImage) (x0 y0 : ℤ) :
    (workerPass op img bounds par k res).pix x0 y0 =
      if (∃ d ∈ workerRowOffsets par (bounds.maxY - bounds.minY).toNat k,
            y0 = bounds.minY + (d : ℤ)) ∧
          bounds.minX ≤ x0 ∧ x0 < bounds.maxX ∧ res.rect.mem x0 y0
      then op img x0 y0 else res.pix x0 y0 :=
  rowsFold_pix op img bounds _ res x0 y0

theorem workersFold_rect (op : NRGBAImage → ℤ → ℤ → NRGBA) (img : NRGBAImage) (bounds : Rect)
    (par : ℕ) :
    ∀ (K : List ℕ) (res : NRGBAImage),
      (K.foldl (fun r k2 => workerPass op img bounds par k2 r) res).rect = res.rect
  | [], _ => rfl
  | k2 :: K, res => by
    rw [List.foldl_cons, workersFold_rect op img bounds par K _, workerPass_rect]

/-- Value of a pixel after a list of workers have each written their rows. -/
theorem workersFold_pix (op : NRGBAImage → ℤ → ℤ → NRGBA) (img : NRGBAImage) (bounds : Rect)
    (par : ℕ) :
    ∀ (K : List ℕ) (res : NRGBAImage) (x0 y0 : ℤ),
      (K.foldl (fun r k2 => workerPass op img bounds par k2 r) res).pix x0 y0 =
        if (∃ k2 ∈ K, ∃ d ∈ workerRowOffsets par (bounds.maxY - bounds.minY).toNat k2,
              y0 = bounds.minY + (d : ℤ)) ∧
            bounds.minX ≤ x0 ∧ x0 < bounds.maxX ∧ res.rect.mem x0 y0
        then op img x0 y0 else res.pix x0 y0
  | [], res, x0, y0 => by simp
  | k2 :: K, res, x0, y0 => by
    rw [List.foldl_cons, workersFold_pix op img bounds par K _ x0 y0, workerPass_rect,
      workerPass_pix]
    by_cases hcoord : bounds.minX ≤ x0 ∧ x0 < bounds.maxX ∧ res.rect.mem x0 y0
    · by_cases hk : ∃ k3 ∈ K,
          ∃ d ∈ workerRowOffsets par (bounds.maxY - bounds.minY).toNat k3,
            y0 = bounds.minY + (d : ℤ)
      · rw [if_pos ⟨hk, hcoord⟩]
        obtain ⟨k3, hk3, hd⟩ := hk
        rw [if_pos ⟨⟨k3, List.mem_cons_of_mem k2 hk3, hd⟩, hcoord⟩]
      · rw [if_neg fun h => hk h.1]
        by_cases hown : ∃ d ∈ workerRowOffsets par (bounds.maxY - bounds.minY).toNat k2,
            y0 = bounds.minY + (d : ℤ)
        · rw [if_pos ⟨hown, hcoord⟩, if_pos ⟨⟨k2, List.mem_cons_self k2 K, hown⟩, hcoord⟩]
        · rw [if_neg fun h => hown h.1, if_neg]
          rintro ⟨⟨k3, hk3, hd⟩, -⟩
          rcases List.mem_cons.mp hk3 with rfl | hK
          · exact hown hd
          · exact hk ⟨k3, hK, hd⟩
    · rw [if_neg fun h => hcoord h.2, if_neg fun h => hcoord ⟨h.2.1, h.2.2⟩,
        if_neg fun h => hcoord h.2]

theorem applyOp_rect (op : NRGBAImage → ℤ → ℤ → NRGBA) (img : NRGBAImage) (par : ℕ) :
    (applyOp op img par).rect = img.rect :=
  workersFold_rect op img img.rect par (List.range par) _

/-- Every in-bounds pixel of `apply`'s output holds `op img x y`; everything
else is untouched (out-of-bounds reads return the zero colour). -/
theorem applyOp_nrgbaAt (op : NRGBAImage → ℤ → ℤ → NRGBA) (img : NRGBAImage) (par : ℕ)
    (hpar : 0 < par) (x y : ℤ) :
    (applyOp op img par).nrgbaAt x y = if img.rect.mem x y then op img x y else zeroPix := by
  unfold NRGBAImage.nrgbaAt
  rw [applyOp_rect]
  by_cases hmem : img.rect.mem x y
  · rw [if_pos hmem, if_pos hmem]
    show (applyOp op img par).pix x y = op img x y
    obtain ⟨h1, h2, h3, h4⟩ := hmem
    have hd : (y - img.rect.minY).toNat ∈
        workerRowOffsets par (img.rect.maxY - img.rect.minY).toNat
          ((y - img.rect.minY).toNat % par) := by
      rw [mem_workerRowOffsets _ _ _ _ hpar]
      exact ⟨by omega, (y - img.rect.minY).toNat / par, (Nat.mod_add_div _ _).symm⟩
    unfold applyOp
    rw [workersFold_pix]
    rw [if_pos ⟨⟨(y - img.rect.minY).toNat % par,
      List.mem_range.mpr (Nat.mod_lt _ hpar),
      (y - img.rect.minY).toNat, hd, by omega⟩, h1, h2, ⟨h1, h2, h3, h4⟩⟩]
  · rw [if_neg hmem, if_neg hmem]

theorem NRGBA.eq_of_channels (c d : NRGBA) (h : ∀ i : Fin 4, c.channel i = d.channel i) :
    c = d := by
  obtain ⟨r1, g1, b1, a1⟩ := c
  obtain ⟨r2, g2, b2, a2⟩ := d
  have h0 := h ⟨0, by omega⟩
  have h1 := h ⟨1, by omega⟩
  have h2 := h ⟨2, by omega⟩
  have h3 := h ⟨3, by omega⟩
  simp only [NRGBA.channel] at h0 h1 h2 h3
  simp [h0, h1, h2, h3]

theorem goRound_nonneg (x : ℚ) (h : 0 ≤ x) : 0 ≤ goRound x := by
  rw [goRound_eq, if_neg (not_lt.mpr h)]
  have : (0 : ℤ) ≤ ⌊x + 1/2⌋ := by
    rw [Int.le_floor]
    push_cast
    linarith
  exact this

theorem goRound_le (x : ℚ) (n : ℤ) (h0 : 0 ≤ x) (h : x ≤ (n : ℚ)) : goRound x ≤ n := by
  rw [goRound_eq, if_neg (not_lt.mpr h0)]
  rw [← Int.lt_add_one_iff, Int.floor_lt]
  push_cast
  linarith

theorem goRound_natCast (c : ℕ) : goRound (c : ℚ) = (c : ℤ) := by
  rw [goRound_eq, if_neg (not_lt.mpr (by positivity))]
  rw [Int.floor_eq_iff]
  push_cast
  constructor <;> linarith

/-- Encoding the linear value 0 through the table yields the byte 0. -/
theorem lookupLinearToSRGB8_zero (pInv24 : ℚ → ℚ) : lookupLinearToSRGB8 pInv24 0 = 0 := by
  norm_num [lookupLinearToSRGB8, convertLinearToSRGB8, goRound, ratFloor_eq_floor]

/-- Encoding the value 255 (Min's initial accumulator) through the table
yields the byte 255, provided the abstract `x^(1/2.4)` fixes 1. -/
theorem lookupLinearToSRGB8_255 (pInv24 : ℚ → ℚ) (hp : pInv24 1 = 1) :
    lookupLinearToSRGB8 pInv24 255 = 255 := by
  norm_num [lookupLinearToSRGB8, convertLinearToSRGB8, goRound, ratFloor_eq_floor, hp]
  omega

theorem lookupSRGB8ToLinear_nonneg (p24 : ℚ → ℚ) (h : ∀ q, 0 ≤ p24 q) (c : ℕ) :
    0 ≤ lookupSRGB8ToLinear p24 c := by
  simp only [lookupSRGB8ToLinear, convertSRGB8ToLinear]
  split_ifs
  · positivity
  · exact h _

theorem lookupSRGB8ToLinear_le_one (p24 : ℚ → ℚ) (h : ∀ q, p24 q ≤ 1) (c : ℕ) :
    lookupSRGB8ToLinear p24 c ≤ 1 := by
  simp only [lookupSRGB8ToLinear, convertSRGB8ToLinear]
  split_ifs with hc
  · rw [div_div, div_le_one (by norm_num)]
    rw [div_le_iff₀ (by norm_num)] at hc
    linarith
  · exact h _

/-- `Max`'s channel fold keeps its initial value when every weight is zero. -/
theorem maxFoldChannel_all_zero (L : List (ℚ × ℚ)) (init : ℚ) (h : ∀ vw ∈ L, vw.2 = 0) :
    maxFoldChannel L init = init := by
  rw [maxFoldChannel_filter_ne_zero]
  have : L.filter (fun vw => decide (vw.2 ≠ 0)) = [] := by
    rw [List.filter_eq_nil_iff]
    intro a ha
    simp [h a ha]
  rw [this]
  rfl

/-- `Min`'s channel fold keeps its initial value when every weight is zero. -/
theorem minFoldChannel_all_zero (L : List (ℚ × ℚ)) (init : ℚ) (h : ∀ vw ∈ L, vw.2 = 0) :
    minFoldChannel L init = init := by
  rw [minFoldChannel_filter_ne_zero]
  have : L.filter (fun vw => decide (vw.2 ≠ 0)) = [] := by
    rw [List.filter_eq_nil_iff]
    intro a ha
    simp [h a ha]
  rw [this]
  rfl

theorem unitKernel_radius : unitKernel.radius = 0 := rfl

theorem unitKernel_clip (bounds : Rect) (x y : ℤ) (hmem : bounds.mem x y) :
    unitKernel.clipToBounds bounds x y = ⟨0, 0, 0, 0⟩ := by
  obtain ⟨h1, h2, h3, h4⟩ := hmem
  unfold Kernel.clipToBounds
  rw [unitKernel_radius]
  rw [if_neg (by omega), if_neg (by omega), if_neg (by omega), if_neg (by omega)]

theorem unitKernel_windowIdx :
    unitKernel.windowIdx ⟨0, 0, 0, 0⟩ = [(0, 0)] := by
  rfl

theorem unitKernel_weightAt : unitKernel.weightAt 0 0 = ⟨1, 1, 1, 1⟩ := by
  rfl

theorem kernelClip_eq (c : kernelClip) (l r t b : ℤ) (hl : c.Left = l) (hr : c.Right = r)
    (ht : c.Top = t) (hb : c.Bottom = b) : c = ⟨l, r, t, b⟩ := by
  cases c
  simp_all

theorem KernelWithRadius_weightAt (r s t : ℕ) :
    (KernelWithRadius r).weightAt s t = ⟨0, 0, 0, 0⟩ := by
  simp only [Kernel.weightAt, KernelWithRadius]
  rcases lt_or_le (s * (r * 2 + 1) + t) ((r * 2 + 1) * (r * 2 + 1)) with h | h
  · rw [List.getD_eq_getElem _ _ (by simpa using h), List.getElem_replicate]
  · rw [List.getD_eq_default _ _ (by simpa using h)]

theorem clamp01_nonneg (v : ℚ) : 0 ≤ min (max v 0) 1 :=
  le_min (le_max_right v 0) (by norm_num)

theorem clamp01_le_one (v : ℚ) : min (max v 0) 1 ≤ 1 :=
  min_le_right _ _

/-- The closed-form encode clamps before rounding, so its byte never
exceeds 255, whatever the abstract power function returns. -/
theorem convertLinearToSRGB8_le (pInv24 : ℚ → ℚ) (v : ℚ) :
    convertLinearToSRGB8 pInv24 v ≤ 255 := by
  simp only [convertLinearToSRGB8]
  rw [Int.toNat_le]
  refine goRound_le _ 255 (mul_nonneg (clamp01_nonneg _) (by norm_num)) ?_
  have h := clamp01_le_one (if v ≤ 0.0031308 then v * 12.92 else 1.055 * pInv24 v - 0.055)
  push_cast
  nlinarith

/-- The table-backed encode clamps before indexing, so its byte never
exceeds 255 either. -/
theorem lookupLinearToSRGB8_le (pInv24 : ℚ → ℚ) (v : ℚ) :
    lookupLinearToSRGB8 pInv24 v ≤ 255 := by
  simp only [lookupLinearToSRGB8]
  exact convertLinearToSRGB8_le pInv24 _

/-- C1: for a kernel of any radius and a pixel inside the bounds, each side's
clip amount is `radius - distance` to that edge when the distance is below the
radius and `0` otherwise; interior pixels get the all-zero clip descriptor, and
a pixel near a corner clips both adjacent sides simultaneously. -/
theorem claimC1 (k : Kernel) (bounds : Rect) (x y : ℤ) (_hmem : bounds.mem x y) :
    ((x - bounds.minX < (k.radius : ℤ) →
        (k.clipToBounds bounds x y).Left = (k.radius : ℤ) - (x - bounds.minX)) ∧
      ((k.radius : ℤ) ≤ x - bounds.minX → (k.clipToBounds bounds x y).Left = 0)) ∧
    ((bounds.maxX - x - 1 < (k.radius : ℤ) →
        (k.clipToBounds bounds x y).Right = (k.radius : ℤ) - (bounds.maxX - x - 1)) ∧
      ((k.radius : ℤ) ≤ bounds.maxX - x - 1 → (k.clipToBounds bounds x y).Right = 0)) ∧
    ((y - bounds.minY < (k.radius : ℤ) →
        (k.clipToBounds bounds x y).Top = (k.radius : ℤ) - (y - bounds.minY)) ∧
      ((k.radius : ℤ) ≤ y - bounds.minY → (k.clipToBounds bounds x y).Top = 0)) ∧
    ((bounds.maxY - y - 1 < (k.radius : ℤ) →
        (k.clipToBounds bounds x y).Bottom = (k.radius : ℤ) - (bounds.maxY - y - 1)) ∧
      ((k.radius : ℤ) ≤ bounds.maxY - y - 1 → (k.clipToBounds bounds x y).Bottom = 0)) ∧
    ((k.radius : ℤ) ≤ x - bounds.minX → (k.radius : ℤ) ≤ bounds.maxX - x - 1 →
      (k.radius : ℤ) ≤ y - bounds.minY → (k.radius : ℤ) ≤ bounds.maxY - y - 1 →
      k.clipToBounds bounds x y = ⟨0, 0, 0, 0⟩) ∧
    (x - bounds.minX < (k.radius : ℤ) → y - bounds.minY < (k.radius : ℤ) →
      0 < (k.clipToBounds bounds x y).Left ∧ 0 < (k.clipToBounds bounds x y).Top) := by
  unfold Kernel.clipToBounds
  dsimp only
  refine ⟨⟨fun h => by rw [if_pos h], fun h => by rw [if_neg (not_lt.mpr h)]⟩,
    ⟨fun h => by rw [if_pos h], fun h => by rw [if_neg (not_lt.mpr h)]⟩,
    ⟨fun h => by rw [if_pos h], fun h => by rw [if_neg (not_lt.mpr h)]⟩,
    ⟨fun h => by rw [if_pos h], fun h => by rw [if_neg (not_lt.mpr h)]⟩,
    fun h1 h2 h3 h4 => by
      rw [if_neg (not_lt.mpr h1), if_neg (not_lt.mpr h2), if_neg (not_lt.mpr h3),
        if_neg (not_lt.mpr h4)],
    fun h1 h2 => ⟨by rw [if_pos h1]; omega, by rw [if_pos h2]; omega⟩⟩

/-- Witness for C1: a radius-2 kernel on the 5×5 bounds `[0,5)×[0,5)`; the
near-corner pixel `(1,0)` clips left by 1 and top by 2, while the interior
pixel `(2,2)` gets the all-zero descriptor. -/
theorem claimC1_witness :
    (KernelWithRadius 2).clipToBounds ⟨0, 0, 5, 5⟩ 1 0 = ⟨1, 0, 2, 0⟩ ∧
    (KernelWithRadius 2).clipToBounds ⟨0, 0, 5, 5⟩ 2 2 = ⟨0, 0, 0, 0⟩ := by
  constructor
  · obtain ⟨⟨hL, -⟩, ⟨-, hR⟩, ⟨hT, -⟩, ⟨-, hB⟩, -, -⟩ :=
      claimC1 (KernelWithRadius 2) ⟨0, 0, 5, 5⟩ 1 0 (by decide)
    have h1 := hL (by decide)
    have h2 := hR (by decide)
    have h3 := hT (by decide)
    have h4 := hB (by decide)
    norm_num [KernelWithRadius] at h1 h2 h3 h4
    exact kernelClip_eq _ 1 0 2 0 h1 h2 h3 h4
  · obtain ⟨-, -, -, -, hint, -⟩ :=
      claimC1 (KernelWithRadius 2) ⟨0, 0, 5, 5⟩ 2 2 (by decide)
    exact hint (by decide) (by decide) (by decide) (by decide)

/-- C4: `Max` starts each channel's accumulator at 0 (the minimum
representable value) and `Min` at 255 (the maximum representable value), so a
window whose weights are all zero for a channel makes `Max` return the
fallback byte 0 and `Min` the saturation byte 255 for that channel. -/
theorem claimC4 (k : Kernel) (p24 pInv24 : ℚ → ℚ) (img : NRGBAImage) (x y : ℤ) (i : Fin 4)
    (hp : pInv24 1 = 1)
    (hz : ∀ st ∈ k.windowIdx (k.clipToBounds img.rect x y), k.windowWeight i st = 0) :
    (k.maxPre p24 img x y).channel i = 0 ∧
    (k.minPre p24 img x y).channel i = 255 ∧
    (k.Max p24 pInv24 img x y).channel i = 0 ∧
    (k.Min p24 pInv24 img x y).channel i = 255 := by
  have he : ∀ vw ∈ k.channelEntries p24 img x y i, vw.2 = 0 := by
    intro vw hvw
    simp only [Kernel.channelEntries, List.mem_map] at hvw
    obtain ⟨st, hst, rfl⟩ := hvw
    exact hz st hst
  have hmax : (k.maxPre p24 img x y).channel i = 0 := by
    rw [maxPre_channel, maxFoldChannel_all_zero _ _ he]
  have hmin : (k.minPre p24 img x y).channel i = 255 := by
    rw [minPre_channel, minFoldChannel_all_zero _ _ he]
  refine ⟨hmax, hmin, ?_, ?_⟩
  · show ((k.maxPre p24 img x y).toNRGBA pInv24).channel i = 0
    rw [kernelWeight.toNRGBA_channel, hmax, lookupLinearToSRGB8_zero]
  · show ((k.minPre p24 img x y).toNRGBA pInv24).channel i = 255
    rw [kernelWeight.toNRGBA_channel, hmin, lookupLinearToSRGB8_255 _ hp]

/-- Witness for C4: the all-zero radius-1 kernel on a 1×1 image. -/
theorem claimC4_witness :
    ((KernelWithRadius 1).Max id id img1 0 0).channel (0 : Fin 4) = 0 ∧
    ((KernelWithRadius 1).Min id id img1 0 0).channel (0 : Fin 4) = 255 := by
  have h := claimC4 (KernelWithRadius 1) id id img1 0 0 (0 : Fin 4) rfl ?hz
  · exact ⟨h.2.2.1, h.2.2.2⟩
  case hz =>
    intro st _
    show ((KernelWithRadius 1).weightAt st.1 st.2).channel _ = 0
    rw [KernelWithRadius_weightAt, kernelWeight.channel_const]

/-- C7: the bulk weight setters reject a slice whose length differs from
`sideLength²`, reporting the expected and actual counts and leaving no
partially updated kernel behind (the error carries no kernel at all); with the
right length they succeed and set every cell. -/
theorem claimC7 (k : Kernel) (wsU : List ℚ) (wsR : List (ℚ × ℚ × ℚ × ℚ)) :
    (wsU.length ≠ k.sideLength * k.sideLength →
      k.setWeightsUniform wsU = Except.error (k.sideLength * k.sideLength, wsU.length)) ∧
    (wsU.length = k.sideLength * k.sideLength →
      ∃ k2, k.setWeightsUniform wsU = Except.ok k2 ∧ k2.radius = k.radius ∧
        k2.sideLength = k.sideLength ∧ k2.weights.length = k.sideLength * k.sideLength ∧
        ∀ i : ℕ, i < k.sideLength * k.sideLength →
          k2.weights.getD i ⟨0, 0, 0, 0⟩ =
            ⟨wsU.getD i 0, wsU.getD i 0, wsU.getD i 0, wsU.getD i 0⟩) ∧
    (wsR.length ≠ k.sideLength * k.sideLength →
      k.setWeightsRGBA wsR = Except.error (k.sideLength * k.sideLength, wsR.length)) ∧
    (wsR.length = k.sideLength * k.sideLength →
      ∃ k2, k.setWeightsRGBA wsR = Except.ok k2 ∧ k2.radius = k.radius ∧
        k2.sideLength = k.sideLength ∧ k2.weights.length = k.sideLength * k.sideLength ∧
        ∀ i : ℕ, i < k.sideLength * k.sideLength →
          k2.weights.getD i ⟨0, 0, 0, 0⟩ =
            ⟨(wsR.getD i 0).1, (wsR.getD i 0).2.1, (wsR.getD i 0).2.2.1,
              (wsR.getD i 0).2.2.2⟩) := by
  refine ⟨?_, ?_, ?_, ?_⟩
  · intro h
    unfold Kernel.setWeightsUniform
    rw [if_pos (Ne.symm h)]
  · intro h
    refine ⟨{ k with weights := wsU.map fun w => ⟨w, w, w, w⟩ }, ?_, rfl, rfl, ?_, ?_⟩
    · unfold Kernel.setWeightsUniform
      rw [if_neg (not_ne_iff.mpr h.symm)]
    · simpa using h
    · intro i hi
      have hi2 : i < wsU.length := by omega
      rw [List.getD_eq_getElem _ _ (by simpa using hi2), List.getElem_map,
        List.getD_eq_getElem _ _ hi2]
  · intro h
    unfold Kernel.setWeightsRGBA
    rw [if_pos (Ne.symm h)]
  · intro h
    refine ⟨{ k with weights := wsR.map fun w => ⟨w.1, w.2.1, w.2.2.1, w.2.2.2⟩ }, ?_, rfl, rfl,
      ?_, ?_⟩
    · unfold Kernel.setWeightsRGBA
      rw [if_neg (not_ne_iff.mpr h.symm)]
    · simpa using h
    · intro i hi
      have hi2 : i < wsR.length := by omega
      rw [List.getD_eq_getElem _ _ (by simpa using hi2), List.getElem_map,
        List.getD_eq_getElem _ _ hi2]

/-- Witness for C7: a radius-1 kernel (9 cells) rejects a 2-entry slice,
reporting expected 9 and actual 2, and accepts a 9-entry slice, setting all
cells. -/
theorem claimC7_witness :
    (KernelWithRadius 1).setWeightsUniform [1, 2] = Except.error (9, 2) ∧
    (∃ k2, (KernelWithRadius 1).setWeightsUniform [1, 1, 1, 1, 1, 1, 1, 1, 1] = Except.ok k2 ∧
      k2.weights.getD 4 ⟨0, 0, 0, 0⟩ = ⟨1, 1, 1, 1⟩) := by
  constructor
  · exact (claimC7 (KernelWithRadius 1) [1, 2] []).1 (by decide)
  · obtain ⟨k2, hok, -, -, -, hcell⟩ :=
      (claimC7 (KernelWithRadius 1) [1, 1, 1, 1, 1, 1, 1, 1, 1] []).2.1 (by decide)
    exact ⟨k2, hok, hcell 4 (by decide)⟩

/-- C10: before encoding, the accumulated linear value is clamped to `[0,1]`,
so the encode-table index stays within `[0,511]` and every byte produced —
including every aggregator's output channels — lies in `[0,255]`, whatever
(finite) value the accumulation produced. -/
theorem claimC10 (pInv24 : ℚ → ℚ) (v : ℚ) :
    (0 ≤ min (max v 0) 1 ∧ min (max v 0) 1 ≤ 1) ∧
    (0 ≤ goRound (min (max v 0) 1 * 511) ∧ goRound (min (max v 0) 1 * 511) ≤ 511) ∧
    lookupLinearToSRGB8 pInv24 v ≤ 255 ∧
    (∀ kw : kernelWeight, ∀ i : Fin 4, (kw.toNRGBA pInv24).channel i ≤ 255) ∧
    (∀ (k : Kernel) (p24 : ℚ → ℚ) (img : NRGBAImage) (x y : ℤ) (i : Fin 4),
      (k.Avg p24 pInv24 img x y).channel i ≤ 255 ∧
      (k.Max p24 pInv24 img x y).channel i ≤ 255 ∧
      (k.Min p24 pInv24 img x y).channel i ≤ 255) := by
  refine ⟨⟨clamp01_nonneg v, clamp01_le_one v⟩, ⟨?_, ?_⟩, lookupLinearToSRGB8_le pInv24 v,
    ?_, ?_⟩
  · exact goRound_nonneg _ (mul_nonneg (clamp01_nonneg _) (by norm_num))
  · refine goRound_le _ 511 (mul_nonneg (clamp01_nonneg _) (by norm_num)) ?_
    have h := clamp01_le_one v
    push_cast
    nlinarith
  · intro kw i
    rw [kernelWeight.toNRGBA_channel]
    exact lookupLinearToSRGB8_le pInv24 _
  · intro k p24 img x y i
    refine ⟨?_, ?_, ?_⟩
    · rw [Avg_channel]
      exact lookupLinearToSRGB8_le pInv24 _
    · show ((k.maxPre p24 img x y).toNRGBA pInv24).channel i ≤ 255
      rw [kernelWeight.toNRGBA_channel]
      exact lookupLinearToSRGB8_le pInv24 _
    · show ((k.minPre p24 img x y).toNRGBA pInv24).channel i ≤ 255
      rw [kernelWeight.toNRGBA_channel]
      exact lookupLinearToSRGB8_le pInv24 _

theorem NRGBA.channel_uniform (n : ℕ) (i : Fin 4) : NRGBA.channel ⟨n, n, n, n⟩ i = n := by
  fin_cases i <;> rfl

theorem kC2_radius : kC2.radius = 1 := rfl

theorem kC3_radius : kC3.radius = 1 := rfl

/-- C5: `apply` allocates a fresh output with the input's bounds, worker `k`
owns exactly the rows `minY+k, minY+k+par, …` (each in-range row belongs to
exactly one worker), every in-bounds pixel of the output holds `op img x y`
when the call returns, and the sequentialised barrier semantics writes each
pixel exactly once. -/
theorem claimC5 (op : NRGBAImage → ℤ → ℤ → NRGBA) (img : NRGBAImage) (par : ℕ)
    (hpar : 1 ≤ par) :
    (applyOp op img par).rect = img.rect ∧
    (∀ x y : ℤ, (applyOp op img par).nrgbaAt x y =
      if img.rect.mem x y then op img x y else zeroPix) ∧
    (∀ k d : ℕ, d ∈ workerRowOffsets par (img.rect.maxY - img.rect.minY).toNat k ↔
      d < (img.rect.maxY - img.rect.minY).toNat ∧ ∃ j, d = k + par * j) ∧
    (∀ d : ℕ, d < (img.rect.maxY - img.rect.minY).toNat →
      ∃! k, k < par ∧ d ∈ workerRowOffsets par (img.rect.maxY - img.rect.minY).toNat k) := by
  refine ⟨applyOp_rect op img par, fun x y => applyOp_nrgbaAt op img par (by omega) x y,
    fun k d => mem_workerRowOffsets par _ k d (by omega), ?_⟩
  intro d hd
  refine ⟨d % par, ⟨Nat.mod_lt _ (by omega), ?_⟩, ?_⟩
  · rw [mem_workerRowOffsets _ _ _ _ (by omega)]
    exact ⟨hd, d / par, (Nat.mod_add_div _ _).symm⟩
  · rintro k2 ⟨hk2, hmem2⟩
    rw [mem_workerRowOffsets _ _ _ _ (by omega)] at hmem2
    obtain ⟨-, j, rfl⟩ := hmem2
    exact (by rw [Nat.add_mul_mod_self_left, Nat.mod_eq_of_lt hk2] :
      (k2 + par * j) % par = k2).symm

/-- Witness for C5: the unit kernel's average on the 1×2 fixture with two
workers; the output has the input's bounds and pixel `(0,1)` holds the
aggregator's value. -/
theorem claimC5_witness :
    (applyOp (unitKernel.Avg id id) img2 2).rect = img2.rect ∧
    (applyOp (unitKernel.Avg id id) img2 2).nrgbaAt 0 1 = unitKernel.Avg id id img2 0 1 := by
  have h := claimC5 (unitKernel.Avg id id) img2 2 (by omega)
  refine ⟨h.1, ?_⟩
  rw [h.2.1 0 1, if_pos (by decide)]

/-- C6: `apply` at any parallelism `N > 1` produces the same output image,
pixel for pixel, as `apply` at parallelism 1 — the partition affects only
scheduling. -/
theorem claimC6 (op : NRGBAImage → ℤ → ℤ → NRGBA) (img : NRGBAImage) (N : ℕ) (hN : 1 < N) :
    (applyOp op img N).rect = (applyOp op img 1).rect ∧
    ∀ x y : ℤ, (applyOp op img N).nrgbaAt x y = (applyOp op img 1).nrgbaAt x y := by
  refine ⟨by rw [applyOp_rect, applyOp_rect], fun x y => ?_⟩
  rw [applyOp_nrgbaAt op img N (by omega) x y, applyOp_nrgbaAt op img 1 (by omega) x y]

/-- Witness for C6: parallelism 2 versus 1 on the 1×2 fixture. -/
theorem claimC6_witness :
    (applyOp (unitKernel.Avg id id) img2 2).nrgbaAt 0 0 =
      (applyOp (unitKernel.Avg id id) img2 1).nrgbaAt 0 0 :=
  (claimC6 (unitKernel.Avg id id) img2 2 (by omega)).2 0 0

/-- C2 (amended): `Avg` accumulates, per channel, the weighted sum of decoded
values and the total weight over exactly the clipped window, and divides only
when the total is strictly positive; otherwise the channel keeps its
unnormalized accumulated sum (which is zero when every weight in the window
is zero for that channel — so no division by zero occurs). -/
theorem claimC2_amended (k : Kernel) (p24 pInv24 : ℚ → ℚ) (img : NRGBAImage) (x y : ℤ)
    (i : Fin 4) :
    ((k.Avg p24 pInv24 img x y).channel i =
      lookupLinearToSRGB8 pInv24
        (if 0 < avgTotalWeight k img x y i then
          avgWeightedSum k p24 img x y i / avgTotalWeight k img x y i
        else avgWeightedSum k p24 img x y i)) ∧
    ((∀ st ∈ windowFinset k (k.clipToBounds img.rect x y), k.windowWeight i st = 0) →
      (k.Avg p24 pInv24 img x y).channel i = 0) := by
  have hT : avgTotalWeight k img x y i =
      ((k.windowIdx (k.clipToBounds img.rect x y)).map (k.windowWeight i)).sum :=
    sum_windowFinset _ _ _
  have hS : avgWeightedSum k p24 img x y i =
      ((k.windowIdx (k.clipToBounds img.rect x y)).map fun st =>
        k.windowValue p24 img x y i st * k.windowWeight i st).sum :=
    sum_windowFinset _ _ _
  constructor
  · rw [Avg_channel, hT, hS]
  · intro hz
    have hT0 : avgTotalWeight k img x y i = 0 := Finset.sum_eq_zero hz
    have hS0 : avgWeightedSum k p24 img x y i = 0 :=
      Finset.sum_eq_zero fun st hst => by rw [hz st hst, mul_zero]
    rw [Avg_channel, ← hT, ← hS, hT0, hS0, if_neg (lt_irrefl 0), lookupLinearToSRGB8_zero]

/-- Witness for C2 (amended): the all-zero radius-1 kernel leaves every
channel at zero. -/
theorem claimC2_amended_witness :
    ((KernelWithRadius 1).Avg id id img1 0 0).channel (0 : Fin 4) = 0 := by
  refine (claimC2_amended (KernelWithRadius 1) id id img1 0 0 (0 : Fin 4)).2 ?_
  intro st _
  show ((KernelWithRadius 1).weightAt st.1 st.2).channel _ = 0
  rw [KernelWithRadius_weightAt, kernelWeight.channel_const]

/-- Counterexample to C2 as stated: with middle-row weights `(+1, 0, -1)` on a
3×1 image whose left pixel is saturated, the red total weight is 0 but the
accumulated sum is 1, so `Avg` outputs byte 255 where the claim's "channel
stays zero" reading demands 0. -/
theorem claimC2_counterexample :
    (kC2.Avg id id imgC2 1 0).channel (0 : Fin 4) ≠ avgClaimC2 kC2 id id imgC2 1 0 (0 : Fin 4) := by
  have hwin : kC2.windowIdx (kC2.clipToBounds imgC2.rect 1 0) = [(1, 0), (1, 1), (1, 2)] := by
    decide
  have hwt0 : kC2.weightAt 1 0 = ⟨1, 1, 1, 1⟩ := rfl
  have hwt1 : kC2.weightAt 1 1 = ⟨0, 0, 0, 0⟩ := rfl
  have hwt2 : kC2.weightAt 1 2 = ⟨-1, -1, -1, -1⟩ := rfl
  have hpix0 : imgC2.nrgbaAt 0 0 = ⟨255, 255, 255, 255⟩ := rfl
  have hpix1 : imgC2.nrgbaAt 1 0 = ⟨0, 0, 0, 0⟩ := rfl
  have hpix2 : imgC2.nrgbaAt 2 0 = ⟨0, 0, 0, 0⟩ := rfl
  have hw : ∀ st : ℕ × ℕ, kC2.windowWeight (0 : Fin 4) st =
      (kC2.weightAt st.1 st.2).channel (0 : Fin 4) := fun _ => rfl
  have hT : ((kC2.windowIdx (kC2.clipToBounds imgC2.rect 1 0)).map
      (kC2.windowWeight (0 : Fin 4))).sum = 0 := by
    rw [hwin]
    simp only [List.map_cons, List.map_nil, List.sum_cons, List.sum_nil, hw, hwt0, hwt1, hwt2,
      kernelWeight.channel_const]
    norm_num
  have hv0 : kC2.windowValue id imgC2 1 0 (0 : Fin 4) (1, 0) = 1 := by
    unfold Kernel.windowValue
    rw [show (1 : ℤ) + (((1, 0) : ℕ × ℕ).2 : ℤ) - (kC2.radius : ℤ) = 0 by
        rw [kC2_radius]; norm_num,
      show (0 : ℤ) + (((1, 0) : ℕ × ℕ).1 : ℤ) - (kC2.radius : ℤ) = 0 by
        rw [kC2_radius]; norm_num,
      hpix0, NRGBA.channel_uniform]
    norm_num [lookupSRGB8ToLinear, convertSRGB8ToLinear]
  have hv1 : kC2.windowValue id imgC2 1 0 (0 : Fin 4) (1, 1) = 0 := by
    unfold Kernel.windowValue
    rw [show (1 : ℤ) + (((1, 1) : ℕ × ℕ).2 : ℤ) - (kC2.radius : ℤ) = 1 by
        rw [kC2_radius]; norm_num,
      show (0 : ℤ) + (((1, 1) : ℕ × ℕ).1 : ℤ) - (kC2.radius : ℤ) = 0 by
        rw [kC2_radius]; norm_num,
      hpix1, NRGBA.channel_uniform]
    norm_num [lookupSRGB8ToLinear, convertSRGB8ToLinear]
  have hv2 : kC2.windowValue id imgC2 1 0 (0 : Fin 4) (1, 2) = 0 := by
    unfold Kernel.windowValue
    rw [show (1 : ℤ) + (((1, 2) : ℕ × ℕ).2 : ℤ) - (kC2.radius : ℤ) = 2 by
        rw [kC2_radius]; norm_num,
      show (0 : ℤ) + (((1, 2) : ℕ × ℕ).1 : ℤ) - (kC2.radius : ℤ) = 0 by
        rw [kC2_radius]; norm_num,
      hpix2, NRGBA.channel_uniform]
    norm_num [lookupSRGB8ToLinear, convertSRGB8ToLinear]
  have hS : ((kC2.windowIdx (kC2.clipToBounds imgC2.rect 1 0)).map fun st =>
      kC2.windowValue id imgC2 1 0 (0 : Fin 4) st * kC2.windowWeight (0 : Fin 4) st).sum = 1 := by
    rw [hwin]
    simp only [List.map_cons, List.map_nil, List.sum_cons, List.sum_nil, hv0, hv1, hv2, hw,
      hwt0, hwt1, hwt2, kernelWeight.channel_const]
    norm_num
  have hL : (kC2.Avg id id imgC2 1 0).channel (0 : Fin 4) = 255 := by
    rw [Avg_channel, hT, hS, if_neg (lt_irrefl 0)]
    norm_num [lookupLinearToSRGB8, convertLinearToSRGB8, goRound, ratFloor_eq_floor]
    omega
  have hR : avgClaimC2 kC2 id id imgC2 1 0 (0 : Fin 4) = 0 := by
    unfold avgClaimC2
    have hT2 : avgTotalWeight kC2 imgC2 1 0 (0 : Fin 4) = 0 := by
      rw [show avgTotalWeight kC2 imgC2 1 0 (0 : Fin 4) = _ from sum_windowFinset _ _ _, hT]
    rw [hT2, if_neg (lt_irrefl 0), lookupLinearToSRGB8_zero]
  rw [hL, hR]
  norm_num

theorem pixRoundTrip_channel (p24 pInv24 : ℚ → ℚ) (c : NRGBA) (i : Fin 4) :
    (pixRoundTrip p24 pInv24 c).channel i = tableRoundTrip p24 pInv24 (c.channel i) := by
  fin_cases i <;> rfl

theorem unit_windowWeight (i : Fin 4) : unitKernel.windowWeight i (0, 0) = 1 := by
  show (unitKernel.weightAt 0 0).channel i = 1
  rw [unitKernel_weightAt, kernelWeight.channel_const]

theorem unit_windowValue (p24 : ℚ → ℚ) (img : NRGBAImage) (x y : ℤ) (i : Fin 4) :
    unitKernel.windowValue p24 img x y i (0, 0) =
      lookupSRGB8ToLinear p24 ((img.nrgbaAt x y).channel i) := by
  unfold Kernel.windowValue
  rw [show x + ((((0, 0) : ℕ × ℕ).2 : ℕ) : ℤ) - (unitKernel.radius : ℤ) = x by
      rw [unitKernel_radius]; norm_num,
    show y + ((((0, 0) : ℕ × ℕ).1 : ℕ) : ℤ) - (unitKernel.radius : ℤ) = y by
      rw [unitKernel_radius]; norm_num]

theorem unit_channelEntries (p24 : ℚ → ℚ) (img : NRGBAImage) (x y : ℤ) (i : Fin 4)
    (hmem : img.rect.mem x y) :
    unitKernel.channelEntries p24 img x y i =
      [(lookupSRGB8ToLinear p24 ((img.nrgbaAt x y).channel i), 1)] := by
  unfold Kernel.channelEntries
  rw [unitKernel_clip _ _ _ hmem, unitKernel_windowIdx]
  simp only [List.map_cons, List.map_nil]
  rw [unit_windowValue, unit_windowWeight]

/-- With unit weight, the radius-0 `Avg` is the table round trip per channel. -/
theorem unit_Avg (p24 pInv24 : ℚ → ℚ) (img : NRGBAImage) (x y : ℤ)
    (hmem : img.rect.mem x y) :
    unitKernel.Avg p24 pInv24 img x y = pixRoundTrip p24 pInv24 (img.nrgbaAt x y) := by
  apply NRGBA.eq_of_channels
  intro i
  rw [Avg_channel, unitKernel_clip _ _ _ hmem, unitKernel_windowIdx]
  simp only [List.map_cons, List.map_nil, List.sum_cons, List.sum_nil, add_zero]
  rw [unit_windowValue, unit_windowWeight, mul_one, if_pos (by norm_num : (0 : ℚ) < 1),
    div_one, pixRoundTrip_channel]
  rfl

/-- With unit weight and a decode bounded below by 0, the radius-0 `Max` is
the table round trip per channel. -/
theorem unit_Max (p24 pInv24 : ℚ → ℚ) (img : NRGBAImage) (x y : ℤ)
    (hmem : img.rect.mem x y) (h0 : ∀ q, 0 ≤ p24 q) :
    unitKernel.Max p24 pInv24 img x y = pixRoundTrip p24 pInv24 (img.nrgbaAt x y) := by
  apply NRGBA.eq_of_channels
  intro i
  show ((unitKernel.maxPre p24 img x y).toNRGBA pInv24).channel i = _
  rw [kernelWeight.toNRGBA_channel, maxPre_channel, unit_channelEntries p24 img x y i hmem]
  have hfold : maxFoldChannel
      [(lookupSRGB8ToLinear p24 ((img.nrgbaAt x y).channel i), 1)] 0 =
      lookupSRGB8ToLinear p24 ((img.nrgbaAt x y).channel i) := by
    unfold maxFoldChannel
    simp only [List.foldl_cons, List.foldl_nil]
    unfold chanStepMax
    rcases (lookupSRGB8ToLinear_nonneg p24 h0 ((img.nrgbaAt x y).channel i)).lt_or_eq
      with h | h
    · rw [if_pos (by simpa using h)]
    · rw [if_neg (by simp [← h])]
      exact h
  rw [hfold, pixRoundTrip_channel]
  rfl

/-- With unit weight and a decode bounded above by 1, the radius-0 `Min` is
the table round trip per channel. -/
theorem unit_Min (p24 pInv24 : ℚ → ℚ) (img : NRGBAImage) (x y : ℤ)
    (hmem : img.rect.mem x y) (h1 : ∀ q, p24 q ≤ 1) :
    unitKernel.Min p24 pInv24 img x y = pixRoundTrip p24 pInv24 (img.nrgbaAt x y) := by
  apply NRGBA.eq_of_channels
  intro i
  show ((unitKernel.minPre p24 img x y).toNRGBA pInv24).channel i = _
  rw [kernelWeight.toNRGBA_channel, minPre_channel, unit_channelEntries p24 img x y i hmem]
  have hlt : lookupSRGB8ToLinear p24 ((img.nrgbaAt x y).channel i) < 255 :=
    lt_of_le_of_lt (lookupSRGB8ToLinear_le_one p24 h1 _) (by norm_num)
  have hfold : minFoldChannel
      [(lookupSRGB8ToLinear p24 ((img.nrgbaAt x y).channel i), 1)] 255 =
      lookupSRGB8ToLinear p24 ((img.nrgbaAt x y).channel i) := by
    unfold minFoldChannel
    simp only [List.foldl_cons, List.foldl_nil]
    unfold chanStepMin
    rw [if_pos (by simpa using hlt)]
  rw [hfold, pixRoundTrip_channel]
  rfl

/-- C3 (amended): the `Max`/`Min` channel folds replace the running value `m`
by `v` exactly when `v*w > m*w` (resp. `<`) against the current entry's
weight; zero-weight entries never influence a channel, and when all weights
are nonnegative the result is the plain maximum (resp. minimum) of the
decoded values at positive-weight entries against the initial 0 (resp. 255) —
not the value with the greatest (least) `weight*value` product. -/
theorem claimC3_amended (k : Kernel) (p24 : ℚ → ℚ) (img : NRGBAImage) (x y : ℤ) (i : Fin 4) :
    ((k.maxPre p24 img x y).channel i =
      maxFoldChannel ((k.channelEntries p24 img x y i).filter fun vw => decide (vw.2 ≠ 0)) 0) ∧
    ((k.minPre p24 img x y).channel i =
      minFoldChannel ((k.channelEntries p24 img x y i).filter fun vw => decide (vw.2 ≠ 0)) 255) ∧
    ((∀ vw ∈ k.channelEntries p24 img x y i, 0 ≤ vw.2) →
      (k.maxPre p24 img x y).channel i =
        (((k.channelEntries p24 img x y i).filter fun vw => decide (0 < vw.2)).map
          Prod.fst).foldl max 0 ∧
      (k.minPre p24 img x y).channel i =
        (((k.channelEntries p24 img x y i).filter fun vw => decide (0 < vw.2)).map
          Prod.fst).foldl min 255) := by
  refine ⟨?_, ?_, fun hnn => ⟨?_, ?_⟩⟩
  · rw [maxPre_channel, maxFoldChannel_filter_ne_zero]
  · rw [minPre_channel, minFoldChannel_filter_ne_zero]
  · rw [maxPre_channel, maxFoldChannel_nonneg _ _ hnn]
  · rw [minPre_channel, minFoldChannel_nonneg _ _ hnn]

/-- Witness for C3 (amended): the `(100, 0, 1)` kernel on the 3×1 fixture has
nonnegative weights, so `Max`'s red channel is the plain maximum over the
positive-weight entries. -/
theorem claimC3_amended_witness :
    (kC3.maxPre id imgC3 1 0).channel (0 : Fin 4) =
      (((kC3.channelEntries id imgC3 1 0 (0 : Fin 4)).filter fun vw =>
        decide (0 < vw.2)).map Prod.fst).foldl max 0 := by
  refine ((claimC3_amended kC3 id imgC3 1 0 (0 : Fin 4)).2.2 ?_).1
  intro vw hvw
  have hwin : kC3.windowIdx (kC3.clipToBounds imgC3.rect 1 0) = [(1, 0), (1, 1), (1, 2)] := by
    decide
  simp only [Kernel.channelEntries, hwin, List.map_cons, List.map_nil, List.mem_cons,
    List.not_mem_nil, or_false] at hvw
  rcases hvw with rfl | rfl | rfl
  · show (0 : ℚ) ≤ (kC3.weightAt 1 0).channel (0 : Fin 4)
    rw [show kC3.weightAt 1 0 = ⟨100, 100, 100, 100⟩ from rfl, kernelWeight.channel_const]
    norm_num
  · show (0 : ℚ) ≤ (kC3.weightAt 1 1).channel (0 : Fin 4)
    rw [show kC3.weightAt 1 1 = ⟨0, 0, 0, 0⟩ from rfl, kernelWeight.channel_const]
  · show (0 : ℚ) ≤ (kC3.weightAt 1 2).channel (0 : Fin 4)
    rw [show kC3.weightAt 1 2 = ⟨1, 1, 1, 1⟩ from rfl, kernelWeight.channel_const]
    norm_num

/-- Counterexample to C3 as stated: on the 3×1 fixture with weights
`(100, 0, 1)`, the cell `(1,0)` (value byte 2, weight 100) is a
nonzero-weight entry with the strictly greatest `weight*value` product, whose
value encodes to byte 0 — yet `Max` returns byte 6 (the plain greatest
value, from the weight-1 cell). -/
theorem claimC3_counterexample :
    (1, 0) ∈ maxClaimC3Candidates kC3 id imgC3 1 0 (0 : Fin 4) ∧
    lookupLinearToSRGB8 id (kC3.windowValue id imgC3 1 0 (0 : Fin 4) (1, 0)) = 0 ∧
    (kC3.Max id id imgC3 1 0).channel (0 : Fin 4) = 6 := by
  have hwin : kC3.windowIdx (kC3.clipToBounds imgC3.rect 1 0) = [(1, 0), (1, 1), (1, 2)] := by
    decide
  have hwf : windowFinset kC3 (kC3.clipToBounds imgC3.rect 1 0) = {(1, 0), (1, 1), (1, 2)} := by
    decide
  have hw0 : kC3.windowWeight (0 : Fin 4) (1, 0) = 100 := by
    show (kC3.weightAt 1 0).channel (0 : Fin 4) = 100
    rw [show kC3.weightAt 1 0 = ⟨100, 100, 100, 100⟩ from rfl, kernelWeight.channel_const]
  have hw1 : kC3.windowWeight (0 : Fin 4) (1, 1) = 0 := by
    show (kC3.weightAt 1 1).channel (0 : Fin 4) = 0
    rw [show kC3.weightAt 1 1 = ⟨0, 0, 0, 0⟩ from rfl, kernelWeight.channel_const]
  have hw2 : kC3.windowWeight (0 : Fin 4) (1, 2) = 1 := by
    show (kC3.weightAt 1 2).channel (0 : Fin 4) = 1
    rw [show kC3.weightAt 1 2 = ⟨1, 1, 1, 1⟩ from rfl, kernelWeight.channel_const]
  have hv0 : kC3.windowValue id imgC3 1 0 (0 : Fin 4) (1, 0) = 2 / 3294.6 := by
    unfold Kernel.windowValue
    rw [show (1 : ℤ) + ((((1, 0) : ℕ × ℕ).2 : ℕ) : ℤ) - (kC3.radius : ℤ) = 0 by
        rw [kC3_radius]; norm_num,
      show (0 : ℤ) + ((((1, 0) : ℕ × ℕ).1 : ℕ) : ℤ) - (kC3.radius : ℤ) = 0 by
        rw [kC3_radius]; norm_num,
      show imgC3.nrgbaAt 0 0 = ⟨2, 2, 2, 2⟩ from rfl, NRGBA.channel_uniform]
    norm_num [lookupSRGB8ToLinear, convertSRGB8ToLinear]
  have hv1 : kC3.windowValue id imgC3 1 0 (0 : Fin 4) (1, 1) = 0 := by
    unfold Kernel.windowValue
    rw [show (1 : ℤ) + ((((1, 1) : ℕ × ℕ).2 : ℕ) : ℤ) - (kC3.radius : ℤ) = 1 by
        rw [kC3_radius]; norm_num,
      show (0 : ℤ) + ((((1, 1) : ℕ × ℕ).1 : ℕ) : ℤ) - (kC3.radius : ℤ) = 0 by
        rw [kC3_radius]; norm_num,
      show imgC3.nrgbaAt 1 0 = ⟨0, 0, 0, 0⟩ from rfl, NRGBA.channel_uniform]
    norm_num [lookupSRGB8ToLinear, convertSRGB8ToLinear]
  have hv2 : kC3.windowValue id imgC3 1 0 (0 : Fin 4) (1, 2) = 6 / 3294.6 := by
    unfold Kernel.windowValue
    rw [show (1 : ℤ) + ((((1, 2) : ℕ × ℕ).2 : ℕ) : ℤ) - (kC3.radius : ℤ) = 2 by
        rw [kC3_radius]; norm_num,
      show (0 : ℤ) + ((((1, 2) : ℕ × ℕ).1 : ℕ) : ℤ) - (kC3.radius : ℤ) = 0 by
        rw [kC3_radius]; norm_num,
      show imgC3.nrgbaAt 2 0 = ⟨6, 6, 6, 6⟩ from rfl, NRGBA.channel_uniform]
    norm_num [lookupSRGB8ToLinear, convertSRGB8ToLinear]
  refine ⟨?_, ?_, ?_⟩
  · rw [maxClaimC3Candidates, Finset.mem_filter]
    refine ⟨by rw [hwf]; decide, by rw [hw0]; norm_num, ?_⟩
    intro st2 hst2 hne
    rw [hwf] at hst2
    simp only [Finset.mem_insert, Finset.mem_singleton] at hst2
    rcases hst2 with rfl | rfl | rfl
    · exact le_refl _
    · exact absurd hw1 hne
    · rw [hv2, hw2, hv0, hw0]
      norm_num
  · rw [hv0]
    norm_num [lookupLinearToSRGB8, convertLinearToSRGB8, goRound, ratFloor_eq_floor]
  · show ((kC3.maxPre id imgC3 1 0).toNRGBA id).channel (0 : Fin 4) = 6
    rw [kernelWeight.toNRGBA_channel, maxPre_channel]
    rw [show kC3.channelEntries id imgC3 1 0 (0 : Fin 4) =
        [(2 / 3294.6, 100), (0, 0), (6 / 3294.6, 1)] by
      unfold Kernel.channelEntries
      rw [hwin]
      simp only [List.map_cons, List.map_nil]
      rw [hv0, hv1, hv2, hw0, hw1, hw2]]
    unfold maxFoldChannel
    simp only [List.foldl_cons, List.foldl_nil]
    rw [show chanStepMax 0 (2 / 3294.6, 100) = 2 / 3294.6 by
        unfold chanStepMax; rw [if_pos (by norm_num)],
      show chanStepMax (2 / 3294.6) (0, 0) = 2 / 3294.6 by
        unfold chanStepMax; rw [if_neg (by norm_num)],
      show chanStepMax (2 / 3294.6) (6 / 3294.6, 1) = 6 / 3294.6 by
        unfold chanStepMax; rw [if_pos (by norm_num)]]
    norm_num [lookupLinearToSRGB8, convertLinearToSRGB8, goRound, ratFloor_eq_floor]
    omega

/-- Counterexample to C8 as stated: at byte input 3 the closed-form
round trip gives byte 3, but the 512-step table-backed encode gives byte 0 — a
deviation of 3, violating the claimed ±1 agreement between the table-backed
and closed-form converters. -/
theorem claimC8_counterexample :
    convertLinearToSRGB8 id (convertSRGB8ToLinear id 3) = 3 ∧
    lookupLinearToSRGB8 id (convertSRGB8ToLinear id 3) = 0 ∧
    ((convertLinearToSRGB8 id (convertSRGB8ToLinear id 3) : ℤ) -
      (lookupLinearToSRGB8 id (convertSRGB8ToLinear id 3) : ℤ) = 3) := by
  have h1 : convertLinearToSRGB8 id (convertSRGB8ToLinear id 3) = 3 := by
    norm_num [convertSRGB8ToLinear, convertLinearToSRGB8, goRound, ratFloor_eq_floor]
    omega
  have h2 : lookupLinearToSRGB8 id (convertSRGB8ToLinear id 3) = 0 := by
    norm_num [convertSRGB8ToLinear, lookupLinearToSRGB8, convertLinearToSRGB8, goRound,
      ratFloor_eq_floor]
  exact ⟨h1, h2, by rw [h1, h2]; norm_num⟩

/-- C8 (amended): on the linear branch of the transfer curve (bytes ≤ 10) the
closed-form round trip `encode(decode(x))` is exactly `x`; the table-backed
encode, however, deviates from the closed form by up to 3 there (byte 3 maps
to 0), so the claimed ±1 table agreement does not hold. -/
theorem claimC8_amended (p24 pInv24 : ℚ → ℚ) (c : ℕ) (hc : c ≤ 10) :
    convertLinearToSRGB8 pInv24 (convertSRGB8ToLinear p24 c) = c := by
  have hc10 : ((c : ℚ)) ≤ 10 := by exact_mod_cast hc
  have hvn : ((c : ℚ)) / 255 ≤ 0.04045 := by
    rw [div_le_iff₀ (by norm_num)]
    linarith
  simp only [convertSRGB8ToLinear, convertLinearToSRGB8]
  rw [if_pos hvn]
  have h2 : (c : ℚ) / 255 / 12.92 ≤ 0.0031308 := by
    rw [div_div, div_le_iff₀ (by norm_num)]
    linarith
  rw [if_pos h2]
  have h3 : (c : ℚ) / 255 / 12.92 * 12.92 = (c : ℚ) / 255 := by
    field_simp
    ring
  rw [h3]
  have h4 : max ((c : ℚ) / 255) 0 = (c : ℚ) / 255 := max_eq_left (by positivity)
  have h5 : min ((c : ℚ) / 255) 1 = (c : ℚ) / 255 := min_eq_left (by
    rw [div_le_one (by norm_num)]
    linarith)
  rw [h4, h5]
  have h6 : (c : ℚ) / 255 * 255 = (c : ℚ) := by field_simp
  rw [h6, goRound_natCast, Int.toNat_natCast]

/-- Witness for C8 (amended): byte 7 round-trips exactly through the
closed-form converters. -/
theorem claimC8_amended_witness :
    convertLinearToSRGB8 id (convertSRGB8ToLinear id 7) = 7 :=
  claimC8_amended id id 7 (by omega)

/-- Counterexample to C9 as stated: on a 1×1 image whose pixel has every
channel 1, the radius-0 unit-weight average maps the pixel to 0 (the 512-step
encode table collapses dark values), so `apply` is not the identity. -/
theorem claimC9_counterexample :
    (applyOp (unitKernel.Avg id id) img1 1).nrgbaAt 0 0 ≠ img1.nrgbaAt 0 0 := by
  have hmem : img1.rect.mem 0 0 := by decide
  rw [applyOp_nrgbaAt _ _ _ (by omega), if_pos hmem]
  have hA : unitKernel.Avg id id img1 0 0 = ⟨0, 0, 0, 0⟩ := by
    apply NRGBA.eq_of_channels
    intro i
    rw [Avg_channel, unitKernel_clip _ _ _ hmem, unitKernel_windowIdx]
    simp only [List.map_cons, List.map_nil, List.sum_cons, List.sum_nil, add_zero]
    rw [unit_windowValue, unit_windowWeight, mul_one, if_pos (by norm_num : (0 : ℚ) < 1),
      div_one, NRGBA.channel_uniform,
      show img1.nrgbaAt 0 0 = ⟨1, 1, 1, 1⟩ from rfl, NRGBA.channel_uniform]
    norm_num [lookupSRGB8ToLinear, convertSRGB8ToLinear, lookupLinearToSRGB8,
      convertLinearToSRGB8, goRound, ratFloor_eq_floor]
  rw [hA, show img1.nrgbaAt 0 0 = ⟨1, 1, 1, 1⟩ from rfl]
  decide

/-- C9 (amended): the radius-0 unit-weight kernel makes `apply` (with the
average, max, or min aggregator, at any parallelism ≥ 1) the pixelwise round
trip through the decode and encode tables — not the identity, from which it
differs on dark bytes. -/
theorem claimC9_amended (p24 pInv24 : ℚ → ℚ) (img : NRGBAImage) (par : ℕ) (x y : ℤ)
    (hpar : 1 ≤ par) (h0 : ∀ q, 0 ≤ p24 q) (h1 : ∀ q, p24 q ≤ 1)
    (hmem : img.rect.mem x y) :
    (applyOp (unitKernel.Avg p24 pInv24) img par).nrgbaAt x y =
      pixRoundTrip p24 pInv24 (img.nrgbaAt x y) ∧
    (applyOp (unitKernel.Max p24 pInv24) img par).nrgbaAt x y =
      pixRoundTrip p24 pInv24 (img.nrgbaAt x y) ∧
    (applyOp (unitKernel.Min p24 pInv24) img par).nrgbaAt x y =
      pixRoundTrip p24 pInv24 (img.nrgbaAt x y) := by
  refine ⟨?_, ?_, ?_⟩ <;> rw [applyOp_nrgbaAt _ _ _ (by omega), if_pos hmem]
  · exact unit_Avg p24 pInv24 img x y hmem
  · exact unit_Max p24 pInv24 img x y hmem h0
  · exact unit_Min p24 pInv24 img x y hmem h1

/-- Witness for C9 (amended): the constant-zero stand-in for `x^2.4` meets
both bounds, and the round trip is realised on the 1×1 fixture. -/
theorem claimC9_amended_witness :
    (applyOp (unitKernel.Avg (fun _ => 0) id) img1 1).nrgbaAt 0 0 =
      pixRoundTrip (fun _ => 0) id (img1.nrgbaAt 0 0) :=
  (claimC9_amended (fun _ => 0) id img1 1 0 0 (by omega) (fun _ => le_refl 0)
    (fun _ => by norm_num) (by decide)).1

end Convolver
